import Mathlib

/-!
# Ruby lexer: embedding of `Ruby_lexer.cpp`

The program is a rule-table lexer.  `RubyLexer::tokenize` walks the input,
and at each offset tries the rules of the table in order with
`std::regex_search(start, m, rule.re, match_continuous)`; the first rule that
matches decides the token.  The embedding has three layers:

* `Re` / `Re.run`: the fragment of ECMAScript regular expressions the rule
  table uses, with the backtracking (priority-ordered) semantics of
  `std::regex`;
* `rules`, `keywords`, `classify`, `update_position`: the tables and helpers of
  the class, transcribed from the source;
* `step` / `tokenizeLoop` / `tokenize`: the scanning loop.

A `std::string` is a `List Char`, one `Char` per `char` of the string.
-/

namespace RubyLexer

/-! ## Data model -/

/-- A `Token` of the source: category, matched text and 1-based position. -/
structure Token where
  type : String
  lexeme : List Char
  line : Nat
  column : Nat
deriving DecidableEq, Repr

/-- The regular-expression forms that occur in the rule table.
`str` is a run of literal characters, `cls` a single-character matcher (a
bracket expression, a class escape such as `\d`, or `.`), `star`/`lazyStar`
are `*` and `*?`, `plus` is `+`, `opt` is `?`. -/
inductive Re where
  | str (cs : List Char)
  | cls (p : Char → Bool)
  | seq (a b : Re)
  | alt (a b : Re)
  | star (r : Re)
  | lazyStar (r : Re)
  | plus (r : Re)
  | opt (r : Re)

/-- A `Rule` of the source: category, pattern, skip flag. -/
structure Rule where
  type : String
  re : Re
  skip : Bool

/-! ## Regular-expression engine

`Re.run r s` lists, in the order the backtracking matcher explores them, the
remainders of `s` after each way `r` can match a prefix of `s`.  The match that
`std::regex_search` reports under `match_continuous` is the first one. -/

/-- Drop the literal `cs` from the front of `s`, if it is there. -/
def dropLit : List Char → List Char → Option (List Char)
  | [], s => some s
  | _ :: _, [] => none
  | c :: cs, d :: s => if d = c then dropLit cs s else none

/-- Iteration of a quantified atom.  `step` is the matcher of the atom; an
iteration that consumes nothing is not taken (ECMAScript RepeatMatcher).  Every
iteration taken shortens the text, so `fuel = s.length` iterations are all that
can happen. -/
def starRun (step : List Char → List (List Char)) (greedy : Bool) :
    Nat → List Char → List (List Char)
  | 0, s => [s]
  | fuel + 1, s =>
    let more := ((step s).filter (fun t => t.length < s.length)).flatMap
      (starRun step greedy fuel)
    if greedy then more ++ [s] else s :: more

/-- All matches of a pattern at the front of `s`, as remainders, in priority
order. -/
def Re.run : Re → List Char → List (List Char)
  | .str cs => fun s => (dropLit cs s).toList
  | .cls p => fun s =>
    match s with
    | [] => []
    | d :: t => if p d then [t] else []
  | .seq a b => fun s => (a.run s).flatMap b.run
  | .alt a b => fun s => a.run s ++ b.run s
  | .star r => fun s => starRun r.run true s.length s
  | .lazyStar r => fun s => starRun r.run false s.length s
  | .plus r => fun s => (r.run s).flatMap (fun t => starRun r.run true t.length t)
  | .opt r => fun s => (r.run s).filter (fun t => t.length < s.length) ++ [s]

/-! ## Character classes -/

/-- A bracket range such as `a-z`. -/
def inRange (lo hi c : Char) : Bool := lo.toNat ≤ c.toNat && c.toNat ≤ hi.toNat

/-- The escape `\d`. -/
def isDigit (c : Char) : Bool := inRange '0' '9' c

/-- The escape `\s`: the characters `isspace` accepts in the "C" locale. -/
def isSpace (c : Char) : Bool :=
  c == ' ' || c == '\t' || c == '\n' || c == Char.ofNat 11 || c == Char.ofNat 12 || c == '\r'

/-- The atom `.`: anything but a line terminator. -/
def isDot (c : Char) : Bool := c != '\n' && c != '\r'

/-- The class `[\s\S]`. -/
def isAny (c : Char) : Bool := isSpace c || !isSpace c

/-- The class `[A-Za-z_]`. -/
def isIdentStart (c : Char) : Bool := inRange 'A' 'Z' c || inRange 'a' 'z' c || c == '_'

/-- The class `[A-Za-z0-9_]`. -/
def isIdentChar (c : Char) : Bool :=
  inRange 'A' 'Z' c || inRange 'a' 'z' c || inRange '0' '9' c || c == '_'

/-- The class `[!?=]`. -/
def isMark (c : Char) : Bool := c == '!' || c == '?' || c == '='

/-- The class `[a-zA-Z]`. -/
def isLetter (c : Char) : Bool := inRange 'a' 'z' c || inRange 'A' 'Z' c

/-- The class `[0-9A-Fa-f_]`. -/
def isHexChar (c : Char) : Bool :=
  inRange '0' '9' c || inRange 'A' 'F' c || inRange 'a' 'f' c || c == '_'

/-- The class `[01_]`. -/
def isBinChar (c : Char) : Bool := c == '0' || c == '1' || c == '_'

/-- The class `[0-7_]`. -/
def isOctChar (c : Char) : Bool := inRange '0' '7' c || c == '_'

/-- The class `[\d_]`. -/
def isDigitU (c : Char) : Bool := isDigit c || c == '_'

/-- The class `[^/\n]`. -/
def isNotSlashNl (c : Char) : Bool := !(c == '/' || c == '\n')

/-- The characters of the class of the one-character operator rule. -/
def opChars : List Char := "+-*/%&|^~!=<>?:.,;()[]\x7b\x7d".toList

/-- The class of the one-character operator rule. -/
def isOpChar (c : Char) : Bool := opChars.contains c

/-- `std::isupper` in the "C" locale. -/
def isupper (c : Char) : Bool := inRange 'A' 'Z' c

/-! ## Tables of the lexer -/

/-- The keyword set filled in by the constructor. -/
def keywords : List (List Char) :=
  (["__ENCODING__", "__LINE__", "__FILE__",
    "BEGIN", "END",
    "alias", "and", "begin", "break", "case", "class", "def", "defined?",
    "do", "else", "elsif", "end", "ensure", "false", "for", "if", "in",
    "module", "next", "nil", "not", "or", "redo", "rescue", "retry",
    "return", "self", "super", "then", "true", "undef", "unless", "until",
    "when", "while", "yield"] : List String).map String.toList

/-- The alternatives of the compound-operator rule, in the order written. -/
def compoundOps : List (List Char) :=
  (["<=>", "===", "<<=", ">>=", "**=", "&&=", "||=", "+=", "-=", "*=", "/=", "%=",
    "&=", "|=", "^=", "<=", ">=", "==", "!=", "=~", "!~", "...", "::", "=>", "**",
    "<<", ">>", "&&", "||", "&.", ".."] : List String).map String.toList

/-- An alternation `x1|x2|...` of literals. -/
def altLits : List (List Char) → Re
  | [] => .cls (fun _ => false)
  | [x] => .str x
  | x :: y :: xs => .alt (.str x) (altLits (y :: xs))

/-- The double quote character. -/
def dq : Char := Char.ofNat 34

/-- The single quote character. -/
def sq : Char := Char.ofNat 39

/-- The backslash character. -/
def bs : Char := Char.ofNat 92

/-- The body `(?:\\.|[\s\S])` of the quoted forms. -/
def quotedItem : Re := .alt (.seq (.str [bs]) (.cls isDot)) (.cls isAny)

/-- The rule table, in the order the constructor pushes it. -/
def rules : List Rule :=
  [ ⟨"COMMENT_BLOCK", .seq (.str "=begin".toList) (.seq (.lazyStar (.cls isAny)) (.str "=end".toList)), false⟩,
    ⟨"COMMENT", .seq (.str ['#']) (.star (.cls isDot)), false⟩,
    ⟨"STRING", .seq (.str [dq]) (.seq (.lazyStar quotedItem) (.str [dq])), false⟩,
    ⟨"STRING", .seq (.str [sq]) (.seq (.lazyStar quotedItem) (.str [sq])), false⟩,
    ⟨"REGEX", .seq (.str ['/'])
        (.seq (.alt (.str [bs, '/']) (.alt (.seq (.str [bs]) (.cls isDot)) (.cls isNotSlashNl)))
          (.seq (.lazyStar (.cls isAny)) (.seq (.str ['/']) (.star (.cls isLetter))))), false⟩,
    ⟨"SYMBOL", .seq (.str [':', sq]) (.seq (.lazyStar quotedItem) (.str [sq])), false⟩,
    ⟨"SYMBOL", .seq (.str [':', dq]) (.seq (.lazyStar quotedItem) (.str [dq])), false⟩,
    ⟨"SYMBOL", .seq (.str [':']) (.seq (.cls isIdentStart)
        (.seq (.star (.cls isIdentChar)) (.opt (.cls isMark)))), false⟩,
    ⟨"CLASS_VAR", .seq (.str ['@', '@']) (.seq (.cls isIdentStart) (.star (.cls isIdentChar))), false⟩,
    ⟨"INSTANCE_VAR", .seq (.str ['@']) (.seq (.cls isIdentStart) (.star (.cls isIdentChar))), false⟩,
    ⟨"GLOBAL_VAR", .seq (.str ['$']) (.plus (.cls isDigit)), false⟩,
    ⟨"GLOBAL_VAR", .seq (.str ['$']) (.seq (.cls isIdentStart) (.star (.cls isIdentChar))), false⟩,
    ⟨"NUMBER_HEX", .seq (.str ['0']) (.seq (.cls (fun c => c == 'x' || c == 'X'))
        (.plus (.cls isHexChar))), false⟩,
    ⟨"NUMBER_BIN", .seq (.str ['0']) (.seq (.cls (fun c => c == 'b' || c == 'B'))
        (.plus (.cls isBinChar))), false⟩,
    ⟨"NUMBER_OCT", .seq (.str ['0']) (.seq (.cls (fun c => c == 'o' || c == 'O'))
        (.plus (.cls isOctChar))), false⟩,
    ⟨"NUMBER_FLOAT", .seq (.cls isDigit) (.seq (.star (.cls isDigitU)) (.seq (.str ['.'])
        (.seq (.cls isDigit) (.seq (.star (.cls isDigitU))
          (.opt (.seq (.cls (fun c => c == 'e' || c == 'E'))
            (.seq (.opt (.cls (fun c => c == '+' || c == '-')))
              (.seq (.cls isDigit) (.star (.cls isDigitU)))))))))), false⟩,
    ⟨"NUMBER_FLOAT", .seq (.cls isDigit) (.seq (.star (.cls isDigitU))
        (.seq (.cls (fun c => c == 'e' || c == 'E'))
          (.seq (.opt (.cls (fun c => c == '+' || c == '-')))
            (.seq (.cls isDigit) (.star (.cls isDigitU)))))), false⟩,
    ⟨"NUMBER_INT", .seq (.cls isDigit) (.star (.cls isDigitU)), false⟩,
    ⟨"OP", altLits compoundOps, false⟩,
    ⟨"OP", .cls isOpChar, false⟩,
    ⟨"IDENT_OR_KW", .seq (.cls isIdentStart) (.seq (.star (.cls isIdentChar)) (.opt (.cls isMark))), false⟩,
    ⟨"WS", .plus (.cls isSpace), true⟩ ]

/-! ## Helpers of the class -/

/-- `RubyLexer::update_position`: walks the text, a newline starts a new line,
any other character moves one column to the right.  The counters are natural
numbers here; `update_position_sz` has them as `size_t`, and the two agree as
long as no counter reaches `2 ^ w` (`update_position_sz_eq`), which is so in
every call `tokenize` makes (`tokenize_sz_eq`). -/
def update_position : List Char → Nat × Nat → Nat × Nat
  | [], lc => lc
  | c :: s, (line, col) =>
    if c = '\n' then update_position s (line + 1, 1) else update_position s (line, col + 1)

/-- `RubyLexer::classify`. -/
def classify (rawType : String) (lex : List Char) : String :=
  if rawType = "IDENT_OR_KW" then
    if lex ∈ keywords then "KEYWORD"
    else
      match lex with
      | c :: _ => if isupper c then "CONSTANT" else "IDENTIFIER"
      | [] => "IDENTIFIER"
  else rawType

/-! ## The scanner -/

/-- The text a `const char*` denotes: `start = input.c_str() + pos` is handed to
`regex_search` as a C string, which ends at the first NUL. -/
def cstr (s : List Char) : List Char := s.takeWhile (fun c => c != Char.ofNat 0)

/-- The `for` loop over the rules: the first rule whose pattern matches at the
front of `s`, with the matched text `m.str(0)`. -/
def firstMatch : List Rule → List Char → Option (Rule × List Char)
  | [], _ => none
  | r :: rs, s =>
    match (r.re.run s).head? with
    | some rest => some (r, s.take (s.length - rest.length))
    | none => firstMatch rs s

/-- The scan position: the input from offset `pos` on, and the line and column
counters. -/
structure Scan where
  rest : List Char
  line : Nat
  col : Nat
deriving DecidableEq, Repr

/-- One iteration of the `while (pos < n)` loop, entered with `c :: cs` the input
from `pos` on: the token pushed, if any, and the scan position afterwards. -/
def step (c : Char) (cs : List Char) (line col : Nat) : Option Token × Scan :=
  match firstMatch rules (cstr (c :: cs)) with
  | some (rule, lex) =>
    let p := update_position lex (line, col)
    (if rule.skip then none else some ⟨classify rule.type lex, lex, line, col⟩,
      ⟨(c :: cs).drop lex.length, p.1, p.2⟩)
  | none =>
    let p := update_position [c] (line, col)
    (some ⟨"ERROR", [c], line, col⟩, ⟨cs, p.1, p.2⟩)

/-- The `while (pos < n)` loop, run for at most `fuel` iterations; `none` when
the iterations are used up before the input is. -/
def tokenizeLoop : Nat → List Char → Nat → Nat → Option (List Token)
  | _, [], _, _ => some []
  | 0, _ :: _, _, _ => none
  | fuel + 1, c :: cs, line, col =>
    let r := step c cs line col
    (tokenizeLoop fuel r.2.rest r.2.line r.2.col).map (fun ts => r.1.toList ++ ts)

/-- `RubyLexer::tokenize`. -/
def tokenize (input : List Char) : Option (List Token) :=
  tokenizeLoop input.length input 1 1

/-! ## Definitions used to state the properties -/

/-- Every character a pattern can consume satisfies `p`. -/
def Re.within (p : Char → Prop) : Re → Prop
  | .str cs => ∀ c ∈ cs, p c
  | .cls q => ∀ c, q c = true → p c
  | .seq a b => a.within p ∧ b.within p
  | .alt a b => a.within p ∧ b.within p
  | .star r => r.within p
  | .lazyStar r => r.within p
  | .plus r => r.within p
  | .opt r => r.within p

/-- The pattern can match the empty text. -/
def Re.nullable : Re → Bool
  | .str cs => cs.isEmpty
  | .cls _ => false
  | .seq a b => a.nullable && b.nullable
  | .alt a b => a.nullable || b.nullable
  | .star _ => true
  | .lazyStar _ => true
  | .plus r => r.nullable
  | .opt _ => true

/-- The token kind vocabulary of the output. -/
def outputKinds : List String :=
  ["COMMENT_BLOCK", "COMMENT", "STRING", "REGEX", "SYMBOL", "CLASS_VAR", "INSTANCE_VAR",
    "GLOBAL_VAR", "NUMBER_HEX", "NUMBER_BIN", "NUMBER_OCT", "NUMBER_FLOAT", "NUMBER_INT", "OP",
    "KEYWORD", "CONSTANT", "IDENTIFIER", "ERROR"]

/-- The graph of the `while` loop: `Scanned s line col toks` when the iterations
from scan position `(s, line, col)` to the end of the input push `toks`. -/
inductive Scanned : List Char → Nat → Nat → List Token → Prop
  | done (line col : Nat) : Scanned [] line col []
  | next (c : Char) (cs : List Char) (line col : Nat) (toks : List Token) :
      Scanned (step c cs line col).2.rest (step c cs line col).2.line (step c cs line col).2.col toks →
      Scanned (c :: cs) line col ((step c cs line col).1.toList ++ toks)


/-- The input rebuilt from the gaps `g0, g1, ...` and the tokens `t1, t2, ...`:
`g0 ++ t1.lexeme ++ g1 ++ t2.lexeme ++ ...`. -/
def weave : List (List Char) → List Token → List Char
  | g :: gs, t :: ts => g ++ t.lexeme ++ weave gs ts
  | g :: _, [] => g
  | [], _ => []

/-- The line of the character that follows the text `p`: one more than the
number of newlines in `p`. -/
def lineAt (p : List Char) : Nat := 1 + p.count '\n'

/-- The column of the character that follows the text `p`: one more than the
number of characters of `p` after its last newline (all of `p` if it has none). -/
def colAt (p : List Char) : Nat := 1 + (p.reverse.takeWhile (fun c => c != '\n')).length

/-- Token `b` does not start before token `a`: lexicographic order on
`(line, column)`, together with the order on lines. -/
def notEarlier (a b : Token) : Prop :=
  a.line ≤ b.line ∧ (a.line < b.line ∨ (a.line = b.line ∧ a.column ≤ b.column))

/-- Over-approximation of the characters a match of the pattern can start with
(`true` when the pattern can match the empty text). -/
def Re.first (c : Char) : Re → Bool
  | .str [] => true
  | .str (d :: _) => c == d
  | .cls p => p c
  | .seq a _ => a.first c
  | .alt a b => a.first c || b.first c
  | .star _ => true
  | .lazyStar _ => true
  | .plus r => r.first c
  | .opt _ => true

/-- The remainders a greedy `[p]*` leaves, longest match first. -/
def greedyTails (p : Char → Bool) : List Char → List (List Char)
  | [] => [[]]
  | d :: t => if p d then greedyTails p t ++ [d :: t] else [d :: t]

/-- The remainders a lazy `[p]*?` leaves, shortest match first. -/
def lazyTails (p : Char → Bool) : List Char → List (List Char)
  | [] => [[]]
  | d :: t => if p d then (d :: t) :: lazyTails p t else [d :: t]

/-- An identifier word: `[A-Za-z_][A-Za-z0-9_]*`. -/
def isIdentWord : List Char → Bool
  | [] => false
  | c :: body => isIdentStart c && body.all isIdentChar

/-- The pattern of the `IDENT_OR_KW` rule, `[A-Za-z_][A-Za-z0-9_]*[!?=]?`. -/
def identRe : Re :=
  .seq (.cls isIdentStart) (.seq (.star (.cls isIdentChar)) (.opt (.cls isMark)))

/-- The `IDENT_OR_KW` rule of the table. -/
def identRule : Rule := ⟨"IDENT_OR_KW", identRe, false⟩

/-- The `WS` rule of the table. -/
def wsRule : Rule := ⟨"WS", .plus (.cls isSpace), true⟩

/-- The compound-operator rule of the table. -/
def opRule : Rule := ⟨"OP", altLits compoundOps, false⟩

/-- The trailing `!`, `?` or `=` the identifier pattern takes from the text that
follows the word characters. -/
def markOf : List Char → List Char
  | [] => []
  | m :: _ => if isMark m then [m] else []

/-- A word of the identifier pattern: an identifier word, or an identifier word
followed by one of `!`, `?`, `=`. -/
def isMarkedWord (w : List Char) : Bool :=
  isIdentWord w ||
    (isIdentWord w.dropLast &&
      match w.getLast? with
      | some m => isMark m
      | none => false)

/-- The `REGEX` rule of the table. -/
def regexRule : Rule :=
  ⟨"REGEX", .seq (.str ['/'])
    (.seq (.alt (.str [bs, '/']) (.alt (.seq (.str [bs]) (.cls isDot)) (.cls isNotSlashNl)))
      (.seq (.lazyStar (.cls isAny)) (.seq (.str ['/']) (.star (.cls isLetter))))), false⟩


/-! ## Output helper and machine arithmetic -/

/-- `escape_for_output`: the `for` loop appends to `out`, for each character of
`s`, backslash-`n`, backslash-`r` or backslash-`t` for a newline, a carriage
return or a tab, and the character itself otherwise. -/
def escape_for_output (s : List Char) : List Char :=
  s.foldl (fun out c =>
    if c = '\n' then out ++ [bs, 'n']
    else if c = '\r' then out ++ [bs, 'r']
    else if c = '\t' then out ++ [bs, 't']
    else out ++ [c]) []

/-- `RubyLexer::update_position` with the counters as `size_t` of `w` bits:
`++line` and `++col` wrap around at `2 ^ w`. -/
def update_position_sz (w : Nat) : List Char → Nat × Nat → Nat × Nat
  | [], lc => lc
  | c :: s, (line, col) =>
    if c = '\n' then update_position_sz w s ((line + 1) % 2 ^ w, 1)
    else update_position_sz w s (line, (col + 1) % 2 ^ w)

/-- One iteration of the loop with `size_t` counters of `w` bits: `step` with
`update_position_sz w` in place of `update_position`. -/
def step_sz (w : Nat) (c : Char) (cs : List Char) (line col : Nat) : Option Token × Scan :=
  match firstMatch rules (cstr (c :: cs)) with
  | some (rule, lex) =>
    let p := update_position_sz w lex (line, col)
    (if rule.skip then none else some ⟨classify rule.type lex, lex, line, col⟩,
      ⟨(c :: cs).drop lex.length, p.1, p.2⟩)
  | none =>
    let p := update_position_sz w [c] (line, col)
    (some ⟨"ERROR", [c], line, col⟩, ⟨cs, p.1, p.2⟩)

/-- The `while` loop with `size_t` counters of `w` bits. -/
def tokenizeLoop_sz (w : Nat) : Nat → List Char → Nat → Nat → Option (List Token)
  | _, [], _, _ => some []
  | 0, _ :: _, _, _ => none
  | fuel + 1, c :: cs, line, col =>
    let r := step_sz w c cs line col
    (tokenizeLoop_sz w fuel r.2.rest r.2.line r.2.col).map (fun ts => r.1.toList ++ ts)

/-- `RubyLexer::tokenize` with `size_t` counters of `w` bits. -/
def tokenize_sz (w : Nat) (input : List Char) : Option (List Token) :=
  tokenizeLoop_sz w input.length input 1 1

/-- What `escape_for_output` writes for one character. -/
def escapeOne (c : Char) : List Char :=
  if c = '\n' then [bs, 'n'] else if c = '\r' then [bs, 'r'] else if c = '\t' then [bs, 't']
  else [c]

/-! ## Rules of the table by name -/

/-- The `COMMENT_BLOCK` rule of the table. -/
def cbRule : Rule :=
  ⟨"COMMENT_BLOCK",
    .seq (.str "=begin".toList) (.seq (.lazyStar (.cls isAny)) (.str "=end".toList)), false⟩

/-- The `COMMENT` rule of the table. -/
def commentRule : Rule := ⟨"COMMENT", .seq (.str ['#']) (.star (.cls isDot)), false⟩

/-- The double-quoted `STRING` rule of the table. -/
def stringRule : Rule :=
  ⟨"STRING", .seq (.str [dq]) (.seq (.lazyStar quotedItem) (.str [dq])), false⟩

/-- The `NUMBER_HEX` rule of the table. -/
def hexRule : Rule :=
  ⟨"NUMBER_HEX", .seq (.str ['0']) (.seq (.cls (fun c => c == 'x' || c == 'X'))
    (.plus (.cls isHexChar))), false⟩

/-- The `NUMBER_BIN` rule of the table. -/
def binRule : Rule :=
  ⟨"NUMBER_BIN", .seq (.str ['0']) (.seq (.cls (fun c => c == 'b' || c == 'B'))
    (.plus (.cls isBinChar))), false⟩

/-- The `NUMBER_OCT` rule of the table. -/
def octRule : Rule :=
  ⟨"NUMBER_OCT", .seq (.str ['0']) (.seq (.cls (fun c => c == 'o' || c == 'O'))
    (.plus (.cls isOctChar))), false⟩

/-- What follows the integer part in the first `NUMBER_FLOAT` pattern. -/
def floatTail1 : Re :=
  .seq (.str ['.'])
    (.seq (.cls isDigit) (.seq (.star (.cls isDigitU))
      (.opt (.seq (.cls (fun c => c == 'e' || c == 'E'))
        (.seq (.opt (.cls (fun c => c == '+' || c == '-')))
          (.seq (.cls isDigit) (.star (.cls isDigitU))))))))

/-- What follows the integer part in the second `NUMBER_FLOAT` pattern. -/
def floatTail2 : Re :=
  .seq (.cls (fun c => c == 'e' || c == 'E'))
    (.seq (.opt (.cls (fun c => c == '+' || c == '-')))
      (.seq (.cls isDigit) (.star (.cls isDigitU))))

/-- The first `NUMBER_FLOAT` rule of the table. -/
def float1Rule : Rule :=
  ⟨"NUMBER_FLOAT", .seq (.cls isDigit) (.seq (.star (.cls isDigitU)) floatTail1), false⟩

/-- The second `NUMBER_FLOAT` rule of the table. -/
def float2Rule : Rule :=
  ⟨"NUMBER_FLOAT", .seq (.cls isDigit) (.seq (.star (.cls isDigitU)) floatTail2), false⟩

/-- The `NUMBER_INT` rule of the table. -/
def intRule : Rule := ⟨"NUMBER_INT", .seq (.cls isDigit) (.star (.cls isDigitU)), false⟩

/-- The one-character operator rule of the table. -/
def op1Rule : Rule := ⟨"OP", .cls isOpChar, false⟩

/-! ## More definitions used to state the properties -/

/-- A bare integer text: `[0-9][0-9_]*`. -/
def isIntText : List Char → Bool
  | [] => false
  | c :: body => isDigit c && body.all isDigitU

/-- The operator set: the compound operators and the one-character operators. -/
def operatorSet : List (List Char) := compoundOps ++ opChars.map (fun c => [c])

/-- The text `x` occurs in the text `s`. -/
def Occurs (x s : List Char) : Prop := ∃ pre post, s = pre ++ x ++ post

/-- The characters with which some rule of the table always matches: whitespace,
letters, underscore, digits, `#` and the one-character operators. -/
def isCovered (c : Char) : Bool :=
  isSpace c || isIdentStart c || isDigit c || c == '#' || isOpChar c
/-! ## Facts about the engine and the loop -/

theorem dropLit_eq_some (cs s t : List Char) : dropLit cs s = some t ↔ s = cs ++ t := by
  induction cs generalizing s with
  | nil => simp [dropLit, eq_comm]
  | cons c cs ih =>
    cases s with
    | nil => simp [dropLit]
    | cons d s =>
      by_cases h : d = c
      · simp [dropLit, h, ih]
      · simp [dropLit, h]

theorem starRun_split (p : Char → Prop) (step : List Char → List (List Char)) (g : Bool)
    (hstep : ∀ s t, t ∈ step s → ∃ pre, s = pre ++ t ∧ ∀ c ∈ pre, p c) :
    ∀ fuel s t, t ∈ starRun step g fuel s → ∃ pre, s = pre ++ t ∧ ∀ c ∈ pre, p c := by
  intro fuel
  induction fuel with
  | zero =>
    intro s t h
    simp [starRun] at h
    exact ⟨[], by simp [h]⟩
  | succ n ih =>
    intro s t h
    have key : t = s ∨ ∃ u, u ∈ step s ∧ t ∈ starRun step g n u := by
      cases g <;> simp [starRun, List.mem_flatMap] at h
      · rcases h with h | ⟨u, ⟨hu, _⟩, ht⟩
        · exact Or.inl h
        · exact Or.inr ⟨u, hu, ht⟩
      · rcases h with ⟨u, ⟨hu, _⟩, ht⟩ | h
        · exact Or.inr ⟨u, hu, ht⟩
        · exact Or.inl h
    rcases key with rfl | ⟨u, hu, ht⟩
    · exact ⟨[], by simp⟩
    · obtain ⟨p1, rfl, h1⟩ := hstep s u hu
      obtain ⟨p2, rfl, h2⟩ := ih u t ht
      refine ⟨p1 ++ p2, by simp, ?_⟩
      intro c hc
      rcases List.mem_append.1 hc with hc | hc
      · exact h1 c hc
      · exact h2 c hc

theorem run_split (p : Char → Prop) (r : Re) (hr : r.within p) :
    ∀ s t, t ∈ r.run s → ∃ pre, s = pre ++ t ∧ ∀ c ∈ pre, p c := by
  induction r with
  | str cs =>
    intro s t h
    simp only [Re.run, Option.mem_toList, Option.mem_def] at h
    exact ⟨cs, (dropLit_eq_some cs s t).1 h, hr⟩
  | cls q =>
    intro s t h
    cases s with
    | nil => simp [Re.run] at h
    | cons d s =>
      by_cases hq : q d = true
      · simp [Re.run, hq] at h
        subst h
        exact ⟨[d], rfl, by simpa using hr d hq⟩
      · simp [Re.run, hq] at h
  | seq a b iha ihb =>
    intro s t h
    simp only [Re.run, List.mem_flatMap] at h
    obtain ⟨u, hu, ht⟩ := h
    obtain ⟨p1, rfl, h1⟩ := iha hr.1 s u hu
    obtain ⟨p2, rfl, h2⟩ := ihb hr.2 u t ht
    refine ⟨p1 ++ p2, by simp, ?_⟩
    intro c hc
    rcases List.mem_append.1 hc with hc | hc
    · exact h1 c hc
    · exact h2 c hc
  | alt a b iha ihb =>
    intro s t h
    simp only [Re.run, List.mem_append] at h
    rcases h with h | h
    · exact iha hr.1 s t h
    · exact ihb hr.2 s t h
  | star r ih =>
    intro s t h
    exact starRun_split p r.run true (ih hr) _ s t h
  | lazyStar r ih =>
    intro s t h
    exact starRun_split p r.run false (ih hr) _ s t h
  | plus r ih =>
    intro s t h
    simp only [Re.run, List.mem_flatMap] at h
    obtain ⟨u, hu, ht⟩ := h
    obtain ⟨p1, rfl, h1⟩ := ih hr s u hu
    obtain ⟨p2, rfl, h2⟩ := starRun_split p r.run true (ih hr) _ u t ht
    refine ⟨p1 ++ p2, by simp, ?_⟩
    intro c hc
    rcases List.mem_append.1 hc with hc | hc
    · exact h1 c hc
    · exact h2 c hc
  | opt r ih =>
    intro s t h
    simp only [Re.run, List.mem_append, List.mem_filter, List.mem_singleton] at h
    rcases h with ⟨h, _⟩ | rfl
    · exact ih hr s t h
    · exact ⟨[], by simp⟩

theorem within_true (r : Re) : r.within (fun _ => True) := by
  induction r <;> simp_all [Re.within]

theorem run_suffix (r : Re) (s t : List Char) (h : t ∈ r.run s) : ∃ pre, s = pre ++ t := by
  obtain ⟨pre, h1, _⟩ := run_split _ r (within_true r) s t h
  exact ⟨pre, h1⟩

theorem run_length_le (r : Re) (s t : List Char) (h : t ∈ r.run s) : t.length ≤ s.length := by
  obtain ⟨pre, rfl⟩ := run_suffix r s t h
  simp

theorem starRun_length_le (r : Re) (g : Bool) (fuel : Nat) (s t : List Char)
    (h : t ∈ starRun r.run g fuel s) : t.length ≤ s.length := by
  obtain ⟨pre, rfl, _⟩ := starRun_split (fun _ => True) r.run g
    (run_split _ r (within_true r)) fuel s t h
  simp

theorem run_progress (r : Re) (hr : r.nullable = false) :
    ∀ s t, t ∈ r.run s → t.length < s.length := by
  induction r with
  | str cs =>
    intro s t h
    simp only [Re.run, Option.mem_toList, Option.mem_def] at h
    have := (dropLit_eq_some cs s t).1 h
    subst this
    cases cs with
    | nil => simp [Re.nullable] at hr
    | cons c cs => simp; omega
  | cls q =>
    intro s t h
    cases s with
    | nil => simp [Re.run] at h
    | cons d s =>
      by_cases hq : q d = true
      · simp [Re.run, hq] at h
        subst h
        simp
      · simp [Re.run, hq] at h
  | seq a b iha ihb =>
    intro s t h
    simp only [Re.run, List.mem_flatMap] at h
    obtain ⟨u, hu, ht⟩ := h
    have h1 := run_length_le a s u hu
    have h2 := run_length_le b u t ht
    simp only [Re.nullable, Bool.and_eq_false_iff] at hr
    rcases hr with hr | hr
    · have := iha hr s u hu
      omega
    · have := ihb hr u t ht
      omega
  | alt a b iha ihb =>
    intro s t h
    simp only [Re.nullable, Bool.or_eq_false_iff] at hr
    simp only [Re.run, List.mem_append] at h
    rcases h with h | h
    · exact iha hr.1 s t h
    · exact ihb hr.2 s t h
  | star r ih => simp [Re.nullable] at hr
  | lazyStar r ih => simp [Re.nullable] at hr
  | plus r ih =>
    intro s t h
    simp only [Re.run, List.mem_flatMap] at h
    obtain ⟨u, hu, ht⟩ := h
    have h1 := ih (by simpa [Re.nullable] using hr) s u hu
    have h2 := starRun_length_le r true _ u t ht
    omega
  | opt r ih => simp [Re.nullable] at hr


theorem rules_nullable : ∀ r ∈ rules, r.re.nullable = false := by decide

theorem rules_skip : ∀ r ∈ rules, r.skip = true → r.re.within (fun c => isSpace c = true) := by
  simp [rules, Re.within]

theorem rules_kinds : ∀ r ∈ rules, r.skip = false → r.type ∈ outputKinds ∨ r.type = "IDENT_OR_KW" := by
  decide

theorem classify_mem (rawType : String) (lex : List Char)
    (h : rawType ∈ outputKinds ∨ rawType = "IDENT_OR_KW") : classify rawType lex ∈ outputKinds := by
  unfold classify
  split
  · split
    · decide
    · split
      · split <;> decide
      · decide
  · rcases h with h | h
    · exact h
    · contradiction

theorem firstMatch_spec (rs : List Rule) (s : List Char) (r : Rule) (lex : List Char)
    (h : firstMatch rs s = some (r, lex)) :
    r ∈ rs ∧ ∃ rest, (r.re.run s).head? = some rest ∧ s = lex ++ rest := by
  induction rs with
  | nil => simp [firstMatch] at h
  | cons r0 rs ih =>
    unfold firstMatch at h
    split at h
    · rename_i rest hrest
      simp only [Option.some.injEq, Prod.mk.injEq] at h
      obtain ⟨rfl, rfl⟩ := h
      refine ⟨List.mem_cons_self _ _, rest, hrest, ?_⟩
      obtain ⟨pre, rfl⟩ := run_suffix r0.re s rest (List.mem_of_mem_head? hrest)
      simp
    · obtain ⟨h1, h2⟩ := ih h
      exact ⟨List.mem_cons_of_mem _ h1, h2⟩

theorem eq_append_drop (s lex t : List Char) (h : s = lex ++ t) :
    s = lex ++ s.drop lex.length := by
  subst h
  simp

theorem cstr_append_dropWhile (s : List Char) :
    cstr s ++ s.dropWhile (fun c => c != Char.ofNat 0) = s := by
  simp [cstr]

/-- What one iteration of the loop does: it consumes a non-empty span `lex` of
the input and moves the counters over it; the span is either a skipped run of
whitespace or the lexeme of the token pushed, whose kind is an output kind and
whose position is the position before the span. -/
theorem step_spec (c : Char) (cs : List Char) (line col : Nat) :
    ∃ lex, lex ≠ [] ∧ c :: cs = lex ++ (step c cs line col).2.rest ∧
      ((step c cs line col).2.line, (step c cs line col).2.col) = update_position lex (line, col) ∧
      (((step c cs line col).1 = none ∧ ∀ x ∈ lex, isSpace x = true) ∨
        ∃ ty, ty ∈ outputKinds ∧ (step c cs line col).1 = some ⟨ty, lex, line, col⟩) := by
  unfold step
  split
  · rename_i rule lex hfm
    obtain ⟨hmem, rest, hrest, hs⟩ := firstMatch_spec _ _ _ _ hfm
    have hin := List.mem_of_mem_head? hrest
    have hlt := run_progress rule.re (rules_nullable rule hmem) _ _ hin
    have hne : lex ≠ [] := by
      rintro rfl
      simp at hs
      rw [← hs] at hlt
      exact absurd hlt (Nat.lt_irrefl _)
    have hfull : c :: cs = lex ++ (rest ++ (c :: cs).dropWhile (fun c => c != Char.ofNat 0)) := by
      conv_lhs => rw [← cstr_append_dropWhile (c :: cs), hs]
      simp
    refine ⟨lex, hne, ?_, rfl, ?_⟩
    · show c :: cs = lex ++ (c :: cs).drop lex.length
      exact eq_append_drop _ _ _ hfull
    · cases hsk : rule.skip with
      | true =>
        left
        refine ⟨by simp, ?_⟩
        obtain ⟨pre, hpre, hall⟩ := run_split _ rule.re (rules_skip rule hmem hsk) _ _ hin
        have : pre = lex := List.append_cancel_right (hpre.symm.trans hs)
        subst this
        exact hall
      | false =>
        right
        exact ⟨classify rule.type lex, classify_mem _ _ (rules_kinds rule hmem hsk), by simp⟩
  · exact ⟨[c], by simp, rfl, rfl, Or.inr ⟨"ERROR", by decide, rfl⟩⟩

theorem step_rest_lt (c : Char) (cs : List Char) (line col : Nat) :
    (step c cs line col).2.rest.length < (c :: cs).length := by
  obtain ⟨lex, hne, hs, _⟩ := step_spec c cs line col
  have := congrArg List.length hs
  simp only [List.length_append] at this
  have : 0 < lex.length := List.length_pos.2 hne
  omega

theorem tokenizeLoop_scanned : ∀ (fuel : Nat) (s : List Char) (line col : Nat), s.length ≤ fuel →
    ∃ toks, tokenizeLoop fuel s line col = some toks ∧ Scanned s line col toks := by
  intro fuel
  induction fuel with
  | zero =>
    intro s line col h
    cases s with
    | nil => exact ⟨[], rfl, Scanned.done _ _⟩
    | cons c cs => simp at h
  | succ n ih =>
    intro s line col h
    cases s with
    | nil => exact ⟨[], by simp [tokenizeLoop], Scanned.done _ _⟩
    | cons c cs =>
      have hlt := step_rest_lt c cs line col
      obtain ⟨toks, h1, h2⟩ := ih (step c cs line col).2.rest (step c cs line col).2.line
        (step c cs line col).2.col (by simp at h hlt; omega)
      exact ⟨_, by simp [tokenizeLoop, h1], Scanned.next c cs line col toks h2⟩

theorem tokenize_scanned (input : List Char) :
    ∃ toks, tokenize input = some toks ∧ Scanned input 1 1 toks :=
  tokenizeLoop_scanned input.length input 1 1 (Nat.le_refl _)


/-! ## Spans, gaps and positions -/

theorem lineAt_snoc (p : List Char) (c : Char) :
    lineAt (p ++ [c]) = if c = '\n' then lineAt p + 1 else lineAt p := by
  by_cases hc : c = '\n'
  · subst hc
    simp [lineAt, List.count_append]
    omega
  · simp [lineAt, List.count_append, hc, List.count_singleton, Ne.symm hc]

theorem colAt_snoc (p : List Char) (c : Char) :
    colAt (p ++ [c]) = if c = '\n' then 1 else colAt p + 1 := by
  by_cases hc : c = '\n'
  · subst hc
    simp [colAt]
  · simp [colAt, hc, List.takeWhile_cons]
    omega

theorem update_position_at (s p : List Char) :
    update_position s (lineAt p, colAt p) = (lineAt (p ++ s), colAt (p ++ s)) := by
  induction s generalizing p with
  | nil => simp [update_position]
  | cons c s ih =>
    have h := ih (p ++ [c])
    simp only [List.append_assoc, List.singleton_append] at h
    rw [← h, lineAt_snoc, colAt_snoc]
    by_cases hc : c = '\n'
    · simp [update_position, hc]
    · simp [update_position, hc]

theorem weave_append_gap (a g : List Char) (gs : List (List Char)) (ts : List Token) :
    weave ((a ++ g) :: gs) ts = a ++ weave (g :: gs) ts := by
  cases ts <;> simp [weave]

/-- The tokens of a scan interleave with whitespace gaps to give back the text
scanned, and each token carries the line and column of the place it starts at. -/
theorem scanned_weave (s : List Char) (line col : Nat) (toks : List Token)
    (h : Scanned s line col toks) :
    ∀ p : List Char, line = lineAt p → col = colAt p →
    ∃ gaps : List (List Char), gaps.length = toks.length + 1 ∧
      (∀ g ∈ gaps, ∀ c ∈ g, isSpace c = true) ∧ weave gaps toks = s ∧
      ∀ (i : Nat) (hi : i < toks.length),
        (toks.get ⟨i, hi⟩).line = lineAt (p ++ weave (gaps.take (i + 1)) (toks.take i)) ∧
        (toks.get ⟨i, hi⟩).column = colAt (p ++ weave (gaps.take (i + 1)) (toks.take i)) := by
  induction h with
  | done line col =>
    intro p _ _
    exact ⟨[[]], by simp, by simp, by simp [weave], by simp⟩
  | next c cs line col toks _ ih =>
    intro p hl hc
    obtain ⟨lex, hne, hs, hpos, hk⟩ := step_spec c cs line col
    subst hl hc
    rw [update_position_at] at hpos
    simp only [Prod.mk.injEq] at hpos
    obtain ⟨gaps, hlen, hsp, hw, hidx⟩ := ih (p ++ lex) hpos.1 hpos.2
    cases gaps with
    | nil => simp at hlen
    | cons g0 gs =>
      rcases hk with ⟨hnone, hws⟩ | ⟨ty, _, hsome⟩
      · rw [hnone]
        refine ⟨(lex ++ g0) :: gs, by simpa using hlen, ?_, ?_, ?_⟩
        · intro g hg x hx
          rcases List.mem_cons.1 hg with rfl | hg
          · rcases List.mem_append.1 hx with hx | hx
            · exact hws x hx
            · exact hsp g0 (List.mem_cons_self _ _) x hx
          · exact hsp g (List.mem_cons_of_mem _ hg) x hx
        · simp only [Option.toList, List.nil_append]
          rw [weave_append_gap, hw]
          exact hs.symm
        · intro i hi
          have := hidx i hi
          simp only [Option.toList, List.nil_append, List.take_succ_cons] at this ⊢
          rw [weave_append_gap, ← List.append_assoc]
          exact this
      · rw [hsome]
        refine ⟨[] :: g0 :: gs, by simpa using hlen, ?_, ?_, ?_⟩
        · intro g hg x hx
          rcases List.mem_cons.1 hg with rfl | hg
          · simp at hx
          · exact hsp g hg x hx
        · show [] ++ lex ++ weave (g0 :: gs) toks = c :: cs
          rw [hw]
          exact hs.symm
        · intro i hi
          cases i with
          | zero => simp [weave]
          | succ k =>
            have := hidx k (by simpa using hi)
            simpa [weave] using this

theorem weave_split (toks : List Token) :
    ∀ (gaps : List (List Char)) (i : Nat) (hi : i < toks.length), gaps.length = toks.length + 1 →
      weave gaps toks = weave (gaps.take (i + 1)) (toks.take i) ++ (toks.get ⟨i, hi⟩).lexeme ++
        weave (gaps.drop (i + 1)) (toks.drop (i + 1)) := by
  induction toks with
  | nil => intro gaps i hi; simp at hi
  | cons t ts ih =>
    intro gaps i hi hlen
    cases gaps with
    | nil => simp at hlen
    | cons g gs =>
      cases gs with
      | nil => simp at hlen
      | cons g1 gs =>
        cases i with
        | zero => simp [weave]
        | succ k =>
          have := ih (g1 :: gs) k (by simpa using hi) (by simpa using hlen)
          simp only [List.take_succ_cons, List.drop_succ_cons, weave, List.get_cons_succ,
            List.append_assoc] at this ⊢
          rw [this]

theorem update_position_mono (s : List Char) :
    ∀ l c : Nat, l ≤ (update_position s (l, c)).1 ∧
      (l < (update_position s (l, c)).1 ∨
        ((update_position s (l, c)).1 = l ∧ c ≤ (update_position s (l, c)).2)) := by
  induction s with
  | nil => intro l c; simp [update_position]
  | cons x s ih =>
    intro l c
    by_cases hx : x = '\n'
    · have := ih (l + 1) 1
      simp only [update_position, hx, if_true]
      omega
    · have := ih l (c + 1)
      simp only [update_position, hx, if_false]
      omega

theorem scanned_head (s : List Char) (line col : Nat) (toks : List Token)
    (h : Scanned s line col toks) :
    ∀ t ∈ toks.head?, line ≤ t.line ∧ (line < t.line ∨ (line = t.line ∧ col ≤ t.column)) := by
  induction h with
  | done line col => simp
  | next c cs line col toks _ ih =>
    obtain ⟨lex, _, _, hpos, hk⟩ := step_spec c cs line col
    have hm := update_position_mono lex line col
    rw [← hpos] at hm
    rcases hk with ⟨hnone, _⟩ | ⟨ty, _, hsome⟩
    · rw [hnone]
      intro t ht
      have := ih t (by simpa using ht)
      omega
    · rw [hsome]
      intro t ht
      simp at ht
      subst ht
      simp

theorem scanned_chain (s : List Char) (line col : Nat) (toks : List Token)
    (h : Scanned s line col toks) : toks.Chain' notEarlier := by
  induction h with
  | done line col => simp
  | next c cs line col toks hsc ih =>
    obtain ⟨lex, _, _, hpos, hk⟩ := step_spec c cs line col
    have hm := update_position_mono lex line col
    rw [← hpos] at hm
    rcases hk with ⟨hnone, _⟩ | ⟨ty, _, hsome⟩
    · rw [hnone]
      simpa using ih
    · rw [hsome]
      simp only [Option.toList, List.singleton_append, List.chain'_cons']
      refine ⟨?_, ih⟩
      intro t ht
      have := scanned_head _ _ _ _ hsc t ht
      simp only [notEarlier]
      omega

theorem scanned_kinds (s : List Char) (line col : Nat) (toks : List Token)
    (h : Scanned s line col toks) : ∀ t ∈ toks, t.type ∈ outputKinds := by
  induction h with
  | done line col => simp
  | next c cs line col toks _ ih =>
    obtain ⟨lex, _, _, _, hk⟩ := step_spec c cs line col
    rcases hk with ⟨hnone, _⟩ | ⟨ty, hty, hsome⟩
    · rw [hnone]
      simpa using ih
    · rw [hsome]
      intro t ht
      simp at ht
      rcases ht with rfl | ht
      · exact hty
      · exact ih t ht

/-! ## Computing with the engine -/

theorem char_eq_iff (c d : Char) : c = d ↔ c.toNat = d.toNat := by
  constructor
  · rintro rfl; rfl
  · intro h; exact Char.ext (UInt32.ext h)

@[simp] theorem run_str (cs s : List Char) : (Re.str cs).run s = (dropLit cs s).toList := rfl

@[simp] theorem run_cls_nil (p : Char → Bool) : (Re.cls p).run [] = [] := rfl

@[simp] theorem run_cls_cons (p : Char → Bool) (d : Char) (t : List Char) :
    (Re.cls p).run (d :: t) = if p d then [t] else [] := rfl

@[simp] theorem run_seq (a b : Re) (s : List Char) :
    (Re.seq a b).run s = (a.run s).flatMap b.run := rfl

@[simp] theorem run_alt (a b : Re) (s : List Char) :
    (Re.alt a b).run s = a.run s ++ b.run s := rfl

@[simp] theorem run_opt (r : Re) (s : List Char) :
    (Re.opt r).run s = (r.run s).filter (fun t => t.length < s.length) ++ [s] := rfl

theorem run_star (r : Re) (s : List Char) :
    (Re.star r).run s = starRun r.run true s.length s := rfl

theorem run_lazyStar (r : Re) (s : List Char) :
    (Re.lazyStar r).run s = starRun r.run false s.length s := rfl

theorem run_plus (r : Re) (s : List Char) :
    (Re.plus r).run s = (r.run s).flatMap (fun t => starRun r.run true t.length t) := rfl

theorem run_first (c : Char) (r : Re) (h : r.first c = false) (s : List Char) :
    r.run (c :: s) = [] := by
  induction r generalizing s with
  | str cs =>
    cases cs with
    | nil => simp [Re.first] at h
    | cons d cs =>
      have : c ≠ d := by simpa [Re.first] using h
      simp [dropLit, this]
  | cls p =>
    have : p c = false := by simpa [Re.first] using h
    simp [this]
  | seq a b iha _ => simp [iha (by simpa [Re.first] using h)]
  | alt a b iha ihb =>
    simp only [Re.first, Bool.or_eq_false_iff] at h
    simp [iha h.1, ihb h.2]
  | star r _ => simp [Re.first] at h
  | lazyStar r _ => simp [Re.first] at h
  | plus r ih => simp [run_plus, ih (by simpa [Re.first] using h)]
  | opt r _ => simp [Re.first] at h

theorem starRun_cls_greedy (p : Char → Bool) :
    ∀ (fuel : Nat) (s : List Char), s.length ≤ fuel →
      starRun (Re.cls p).run true fuel s = greedyTails p s := by
  intro fuel
  induction fuel with
  | zero =>
    intro s h
    cases s with
    | nil => simp [starRun, greedyTails]
    | cons d t => simp at h
  | succ n ih =>
    intro s h
    cases s with
    | nil => simp [starRun, greedyTails]
    | cons d t =>
      by_cases hp : p d = true
      · simp [starRun, greedyTails, hp, ih t (by simpa using h)]
      · simp [starRun, greedyTails, hp]

theorem starRun_cls_lazy (p : Char → Bool) :
    ∀ (fuel : Nat) (s : List Char), s.length ≤ fuel →
      starRun (Re.cls p).run false fuel s = lazyTails p s := by
  intro fuel
  induction fuel with
  | zero =>
    intro s h
    cases s with
    | nil => simp [starRun, lazyTails]
    | cons d t => simp at h
  | succ n ih =>
    intro s h
    cases s with
    | nil => simp [starRun, lazyTails]
    | cons d t =>
      by_cases hp : p d = true
      · simp [starRun, lazyTails, hp, ih t (by simpa using h)]
      · simp [starRun, lazyTails, hp]

@[simp] theorem run_star_cls (p : Char → Bool) (s : List Char) :
    (Re.star (.cls p)).run s = greedyTails p s :=
  starRun_cls_greedy p _ s (Nat.le_refl _)

@[simp] theorem run_lazyStar_cls (p : Char → Bool) (s : List Char) :
    (Re.lazyStar (.cls p)).run s = lazyTails p s :=
  starRun_cls_lazy p _ s (Nat.le_refl _)

@[simp] theorem run_plus_cls (p : Char → Bool) (s : List Char) :
    (Re.plus (.cls p)).run s = ((Re.cls p).run s).flatMap (greedyTails p) := by
  simp only [run_plus]
  congr 1
  funext t
  exact starRun_cls_greedy p _ t (Nat.le_refl _)

theorem greedyTails_ne_nil (p : Char → Bool) (s : List Char) : greedyTails p s ≠ [] := by
  cases s with
  | nil => simp [greedyTails]
  | cons d t => by_cases hp : p d = true <;> simp [greedyTails, hp]

/-- The first choice of a greedy class star: everything up to the first
character outside the class. -/
theorem greedyTails_head (p : Char → Bool) (xs rest : List Char)
    (hxs : ∀ x ∈ xs, p x = true) (hrest : ∀ d ∈ rest.head?, p d = false) :
    (greedyTails p (xs ++ rest)).head? = some rest := by
  induction xs with
  | nil =>
    cases rest with
    | nil => simp [greedyTails]
    | cons d t =>
      have : p d = false := hrest d (by simp)
      simp [greedyTails, this]
  | cons x xs ih =>
    have hx : p x = true := hxs x (List.mem_cons_self _ _)
    have := ih (fun y hy => hxs y (List.mem_cons_of_mem _ hy))
    simp only [List.cons_append, greedyTails, hx, if_true]
    rw [List.head?_append_of_ne_nil _ (greedyTails_ne_nil p _)]
    exact this

theorem head?_flatMap {α β : Type} (l : List α) (f : α → List β) (a : α)
    (h : l.head? = some a) (hf : f a ≠ []) : (l.flatMap f).head? = (f a).head? := by
  cases l with
  | nil => simp at h
  | cons x xs =>
    simp at h
    subst h
    simp [List.flatMap_cons, List.head?_append_of_ne_nil _ hf]

/-! ## Which rule fires -/

theorem firstMatch_append_of_fail (pre rs : List Rule) (s : List Char)
    (h : ∀ r ∈ pre, r.re.run s = []) : firstMatch (pre ++ rs) s = firstMatch rs s := by
  induction pre with
  | nil => rfl
  | cons r pre ih =>
    have h0 := h r (List.mem_cons_self _ _)
    simp only [List.cons_append, firstMatch, h0, List.head?_nil]
    exact ih (fun x hx => h x (List.mem_cons_of_mem _ hx))

theorem firstMatch_cons_hit (r : Rule) (rs : List Rule) (lex rest : List Char)
    (h : (r.re.run (lex ++ rest)).head? = some rest) :
    firstMatch (r :: rs) (lex ++ rest) = some (r, lex) := by
  simp [firstMatch, h]

theorem ident_first (c : Char) (hc : isIdentStart c = true) :
    ∀ r ∈ rules.take 20, r.re.first c = false := by
  simp [rules, Re.first, altLits, compoundOps, isIdentStart, inRange, char_eq_iff, isDigit, isOpChar, opChars,
    dq, sq, bs] at hc ⊢
  omega

theorem space_first (c : Char) (hc : isSpace c = true) :
    ∀ r ∈ rules.take 21, r.re.first c = false := by
  simp [rules, Re.first, altLits, compoundOps, isIdentStart, inRange, char_eq_iff, isDigit, isOpChar, opChars,
    dq, sq, bs, isSpace] at hc ⊢
  omega

theorem rules_split20 : rules = rules.take 20 ++ [identRule, wsRule] := rfl

theorem rules_split21 : rules = rules.take 21 ++ [wsRule] := rfl

theorem rules_split18 : rules = rules.take 18 ++ opRule :: rules.drop 19 := rfl

theorem identRe_head (c : Char) (body r : List Char) (hc : isIdentStart c = true)
    (hb : ∀ x ∈ body, isIdentChar x = true) (hr : ∀ d ∈ r.head?, isIdentChar d = false) :
    (identRe.run ((c :: body ++ markOf r) ++ r.drop (markOf r).length)).head? =
      some (r.drop (markOf r).length) := by
  have hmr : markOf r ++ r.drop (markOf r).length = r := by
    cases r with
    | nil => simp [markOf]
    | cons m t => by_cases hm : isMark m = true <;> simp [markOf, hm]
  have hs : (c :: body ++ markOf r) ++ r.drop (markOf r).length = c :: (body ++ r) := by
    simp [List.append_assoc, hmr]
  rw [hs]
  simp only [identRe, run_seq, run_cls_cons, hc, if_true, List.flatMap_cons, List.flatMap_nil,
    List.append_nil, run_star_cls]
  rw [head?_flatMap _ _ r (greedyTails_head _ body r hb hr) (by simp)]
  cases r with
  | nil => simp [markOf]
  | cons m t =>
    by_cases hm : isMark m = true
    · simp [markOf, hm]
    · simp [markOf, hm]

theorem firstMatch_ident (c : Char) (body r : List Char) (hc : isIdentStart c = true)
    (hb : ∀ x ∈ body, isIdentChar x = true) (hr : ∀ d ∈ r.head?, isIdentChar d = false) :
    firstMatch rules ((c :: body ++ markOf r) ++ r.drop (markOf r).length) =
      some (identRule, c :: body ++ markOf r) := by
  rw [rules_split20, firstMatch_append_of_fail]
  · exact firstMatch_cons_hit identRule _ _ _ (identRe_head c body r hc hb hr)
  · intro x hx
    exact run_first c x.re (ident_first c hc x hx) _

/-! ## Steps of the loop on particular texts -/

theorem scanned_unique (s : List Char) (line col : Nat) (t1 t2 : List Token)
    (h1 : Scanned s line col t1) (h2 : Scanned s line col t2) : t1 = t2 := by
  induction h1 generalizing t2 with
  | done line col => cases h2; rfl
  | next c cs line col toks _ ih =>
    cases h2 with
    | next _ _ _ _ toks2 h2 => rw [ih toks2 h2]

theorem tokenize_of_scanned (input : List Char) (toks : List Token)
    (h : Scanned input 1 1 toks) : tokenize input = some toks := by
  obtain ⟨toks2, h1, h2⟩ := tokenize_scanned input
  rw [h1, scanned_unique _ _ _ _ _ h2 h]

theorem cstr_append (xs s : List Char) (h : ∀ x ∈ xs, x ≠ Char.ofNat 0) :
    cstr (xs ++ s) = xs ++ cstr s := by
  induction xs with
  | nil => rfl
  | cons x xs ih =>
    have hx : x ≠ Char.ofNat 0 := h x (List.mem_cons_self _ _)
    have := ih (fun y hy => h y (List.mem_cons_of_mem _ hy))
    simp only [cstr] at this ⊢
    simp [List.takeWhile_cons, hx, this]

theorem cstr_head (s : List Char) (d : Char) (h : d ∈ (cstr s).head?) : d ∈ s.head? := by
  cases s with
  | nil => simp [cstr] at h
  | cons x xs =>
    by_cases hx : x = Char.ofNat 0
    · simp [cstr, List.takeWhile_cons, hx] at h
    · simp [cstr, List.takeWhile_cons, hx] at h
      simp [h]

theorem markOf_cstr (s : List Char) : markOf (cstr s) = markOf s := by
  cases s with
  | nil => rfl
  | cons x xs =>
    by_cases hx : x = Char.ofNat 0
    · subst hx
      simp [cstr, List.takeWhile_cons, markOf]
      decide
    · simp [cstr, List.takeWhile_cons, hx, markOf]

theorem cstr_drop_markOf (s : List Char) :
    cstr (s.drop (markOf s).length) = (cstr s).drop (markOf s).length := by
  cases s with
  | nil => rfl
  | cons x xs =>
    by_cases hm : isMark x = true
    · have hx : x ≠ Char.ofNat 0 := by
        rintro rfl
        exact absurd hm (by decide)
      simp [markOf, hm, cstr, List.takeWhile_cons, hx]
    · simp [markOf, hm]

theorem identStart_ne_nul (c : Char) (h : isIdentStart c = true) : c ≠ Char.ofNat 0 := by
  rintro rfl
  exact absurd h (by decide)

theorem identChar_ne_nul (c : Char) (h : isIdentChar c = true) : c ≠ Char.ofNat 0 := by
  rintro rfl
  exact absurd h (by decide)

theorem update_position_flat (s : List Char) (h : ∀ x ∈ s, x ≠ '\n') (line col : Nat) :
    update_position s (line, col) = (line, col + s.length) := by
  induction s generalizing col with
  | nil => rfl
  | cons x s ih =>
    have hx : x ≠ '\n' := h x (List.mem_cons_self _ _)
    simp only [update_position, hx, if_false, List.length_cons]
    rw [ih (fun y hy => h y (List.mem_cons_of_mem _ hy))]
    congr 1
    omega

theorem identWord_no_newline (c : Char) (body r : List Char) (hc : isIdentStart c = true)
    (hb : ∀ x ∈ body, isIdentChar x = true) : ∀ x ∈ c :: body ++ markOf r, x ≠ '\n' := by
  intro x hx
  simp only [List.cons_append, List.mem_cons, List.mem_append] at hx
  rintro rfl
  rcases hx with rfl | hx | hx
  · exact absurd hc (by decide)
  · exact absurd (hb _ hx) (by decide)
  · cases r with
    | nil => simp [markOf] at hx
    | cons m t =>
      by_cases hm : isMark m = true
      · simp [markOf, hm] at hx
        subst hx
        exact absurd hm (by decide)
      · simp [markOf, hm] at hx

/-- One iteration of the loop at the start of an identifier word: the word, with
the `!`, `?` or `=` that may follow it, becomes one token. -/
theorem step_ident (c : Char) (body rest : List Char) (line col : Nat)
    (hc : isIdentStart c = true) (hb : ∀ x ∈ body, isIdentChar x = true)
    (hr : ∀ d ∈ rest.head?, isIdentChar d = false) :
    step c (body ++ rest) line col =
      (some ⟨classify "IDENT_OR_KW" (c :: body ++ markOf rest), c :: body ++ markOf rest, line, col⟩,
        ⟨rest.drop (markOf rest).length, line, col + (c :: body ++ markOf rest).length⟩) := by
  have hnul : ∀ x ∈ c :: body, x ≠ Char.ofNat 0 := by
    intro x hx
    rcases List.mem_cons.1 hx with rfl | hx
    · exact identStart_ne_nul _ hc
    · exact identChar_ne_nul _ (hb x hx)
  have hmr : markOf rest ++ rest.drop (markOf rest).length = rest := by
    cases rest with
    | nil => simp [markOf]
    | cons m t => by_cases hm : isMark m = true <;> simp [markOf, hm]
  have hcs : cstr (c :: (body ++ rest)) =
      (c :: body ++ markOf (cstr rest)) ++ (cstr rest).drop (markOf (cstr rest)).length := by
    have h1 := cstr_append (c :: body) rest hnul
    have h2 : markOf (cstr rest) ++ (cstr rest).drop (markOf (cstr rest)).length = cstr rest := by
      rw [markOf_cstr, ← cstr_drop_markOf]
      conv_rhs => rw [← hmr]
      cases rest with
      | nil => simp [markOf]
      | cons m t =>
        by_cases hm : isMark m = true
        · have hx : m ≠ Char.ofNat 0 := by
            rintro rfl
            exact absurd hm (by decide)
          simp [markOf, hm, cstr, List.takeWhile_cons, hx]
        · simp [markOf, hm]
    simp only [List.cons_append] at h1 ⊢
    rw [h1, List.append_assoc, h2]
  have hfm := firstMatch_ident c body (cstr rest) hc hb
    (fun d hd => hr d (cstr_head rest d hd))
  rw [← hcs, markOf_cstr] at hfm
  have hdrop : (c :: (body ++ rest)).drop (c :: body ++ markOf rest).length =
      rest.drop (markOf rest).length := by
    have : c :: (body ++ rest) = (c :: body ++ markOf rest) ++ rest.drop (markOf rest).length := by
      simp [List.append_assoc, hmr]
    rw [this, List.drop_left]
  simp only [step, hfm, identRule, update_position_flat _ (identWord_no_newline c body rest hc hb)]
  simp [hdrop]

theorem scanned_ident (c : Char) (body rest : List Char) (line col : Nat) (toks : List Token)
    (hc : isIdentStart c = true) (hb : ∀ x ∈ body, isIdentChar x = true)
    (hr : ∀ d ∈ rest.head?, isIdentChar d = false)
    (h : Scanned (rest.drop (markOf rest).length) line (col + (c :: body ++ markOf rest).length) toks) :
    Scanned (c :: body ++ rest) line col
      (⟨classify "IDENT_OR_KW" (c :: body ++ markOf rest), c :: body ++ markOf rest, line, col⟩ ::
        toks) := by
  have hs := step_ident c body rest line col hc hb hr
  have := Scanned.next c (body ++ rest) line col toks (by rw [hs]; exact h)
  rw [hs] at this
  exact this

theorem isIdentWord_iff (w : List Char) :
    isIdentWord w = true ↔
      ∃ c body, w = c :: body ∧ isIdentStart c = true ∧ ∀ x ∈ body, isIdentChar x = true := by
  cases w with
  | nil => simp [isIdentWord]
  | cons c body =>
    simp only [isIdentWord, Bool.and_eq_true, List.all_eq_true]
    constructor
    · rintro ⟨h1, h2⟩
      exact ⟨c, body, rfl, h1, h2⟩
    · rintro ⟨c2, body2, h0, h1, h2⟩
      cases h0
      exact ⟨h1, h2⟩

theorem isMarkedWord_split (w : List Char) (h : isMarkedWord w = true) :
    ∃ c body tail, w = c :: body ++ tail ∧ isIdentStart c = true ∧
      (∀ x ∈ body, isIdentChar x = true) ∧ (∀ d ∈ tail.head?, isIdentChar d = false) ∧
      markOf tail = tail := by
  simp only [isMarkedWord, Bool.or_eq_true, Bool.and_eq_true] at h
  rcases h with h | ⟨h1, h2⟩
  · obtain ⟨c, body, rfl, hc, hb⟩ := (isIdentWord_iff w).1 h
    exact ⟨c, body, [], by simp, hc, hb, by simp, rfl⟩
  · obtain ⟨c, body, hw, hc, hb⟩ := (isIdentWord_iff _).1 h1
    cases hl : w.getLast? with
    | none => simp [hl] at h2
    | some m =>
      rw [hl] at h2
      simp only at h2
      have hw2 : w = w.dropLast ++ [m] := (List.dropLast_append_getLast? m hl).symm
      refine ⟨c, body, [m], by rw [← hw]; exact hw2, hc, hb, ?_, by simp [markOf, h2]⟩
      intro d hd
      simp at hd
      subst hd
      simp only [isMark, Bool.or_eq_true, beq_iff_eq] at h2
      rcases h2 with (rfl | rfl) | rfl <;> decide

theorem tokenize_marked (w : List Char) (h : isMarkedWord w = true) :
    tokenize w = some [⟨classify "IDENT_OR_KW" w, w, 1, 1⟩] := by
  obtain ⟨c, body, tail, rfl, hc, hb, ht, hm⟩ := isMarkedWord_split w h
  apply tokenize_of_scanned
  have := scanned_ident c body tail 1 1 [] hc hb ht (by rw [hm]; simp; exact Scanned.done _ _)
  rw [hm] at this
  exact this

theorem space_ne_nul (c : Char) (h : isSpace c = true) : c ≠ Char.ofNat 0 := by
  rintro rfl
  exact absurd h (by decide)

theorem space_not_identChar (c : Char) (h : isSpace c = true) : isIdentChar c = false := by
  simp [isSpace, isIdentChar, inRange, char_eq_iff] at h ⊢
  omega

theorem space_not_mark (c : Char) (h : isSpace c = true) : isMark c = false := by
  simp [isSpace, isMark, char_eq_iff] at h ⊢
  omega

theorem identStart_not_space (c : Char) (h : isIdentStart c = true) : isSpace c = false := by
  simp [isSpace, isIdentStart, inRange, char_eq_iff] at h ⊢
  omega

theorem firstMatch_ws (w0 : Char) (ws r : List Char) (h0 : isSpace w0 = true)
    (hws : ∀ x ∈ ws, isSpace x = true) (hr : ∀ d ∈ r.head?, isSpace d = false) :
    firstMatch rules ((w0 :: ws) ++ r) = some (wsRule, w0 :: ws) := by
  rw [rules_split21, firstMatch_append_of_fail]
  · apply firstMatch_cons_hit
    simp only [wsRule, run_plus_cls, List.cons_append, run_cls_cons, h0, if_true,
      List.flatMap_cons, List.flatMap_nil, List.append_nil]
    exact greedyTails_head _ ws r hws hr
  · intro x hx
    exact run_first w0 x.re (space_first w0 h0 x hx) _

/-- One iteration of the loop at the start of a run of whitespace: the run is
consumed and nothing is pushed. -/
theorem step_ws (w0 : Char) (ws rest : List Char) (line col : Nat) (h0 : isSpace w0 = true)
    (hws : ∀ x ∈ ws, isSpace x = true) (hr : ∀ d ∈ rest.head?, isSpace d = false) :
    step w0 (ws ++ rest) line col =
      (none, ⟨rest, (update_position (w0 :: ws) (line, col)).1,
        (update_position (w0 :: ws) (line, col)).2⟩) := by
  have hnul : ∀ x ∈ w0 :: ws, x ≠ Char.ofNat 0 := by
    intro x hx
    rcases List.mem_cons.1 hx with rfl | hx
    · exact space_ne_nul _ h0
    · exact space_ne_nul _ (hws x hx)
  have hcs : cstr (w0 :: (ws ++ rest)) = (w0 :: ws) ++ cstr rest :=
    cstr_append (w0 :: ws) rest hnul
  have hfm := firstMatch_ws w0 ws (cstr rest) h0 hws (fun d hd => hr d (cstr_head rest d hd))
  rw [← hcs] at hfm
  have hdrop : (w0 :: (ws ++ rest)).drop (w0 :: ws).length = rest := by
    have : w0 :: (ws ++ rest) = (w0 :: ws) ++ rest := rfl
    rw [this, List.drop_left]
  simp only [step, hfm, wsRule, if_true]
  rw [hdrop]

theorem scanned_ws (w0 : Char) (ws rest : List Char) (line col : Nat) (toks : List Token)
    (h0 : isSpace w0 = true) (hws : ∀ x ∈ ws, isSpace x = true)
    (hr : ∀ d ∈ rest.head?, isSpace d = false)
    (h : Scanned rest (update_position (w0 :: ws) (line, col)).1
      (update_position (w0 :: ws) (line, col)).2 toks) :
    Scanned (w0 :: ws ++ rest) line col toks := by
  have hs := step_ws w0 ws rest line col h0 hws hr
  have := Scanned.next w0 (ws ++ rest) line col toks (by rw [hs]; exact h)
  rw [hs] at this
  exact this

theorem update_position_append (s t : List Char) (lc : Nat × Nat) :
    update_position (s ++ t) lc = update_position t (update_position s lc) := by
  induction s generalizing lc with
  | nil => rfl
  | cons x s ih =>
    obtain ⟨l, c⟩ := lc
    by_cases hx : x = '\n'
    · simp [update_position, hx, ih]
    · simp [update_position, hx, ih]

theorem scanned_ident_end (c : Char) (body : List Char) (line col : Nat)
    (hc : isIdentStart c = true) (hb : ∀ x ∈ body, isIdentChar x = true) :
    Scanned (c :: body) line col [⟨classify "IDENT_OR_KW" (c :: body), c :: body, line, col⟩] := by
  have := scanned_ident c body [] line col [] hc hb (by simp) (Scanned.done _ _)
  simpa [markOf] using this

theorem scanned_ident_then (c : Char) (body rest : List Char) (line col : Nat)
    (toks : List Token) (hc : isIdentStart c = true) (hb : ∀ x ∈ body, isIdentChar x = true)
    (hr : ∀ d ∈ rest.head?, isIdentChar d = false ∧ isMark d = false)
    (h : Scanned rest line (col + (c :: body).length) toks) :
    Scanned (c :: body ++ rest) line col
      (⟨classify "IDENT_OR_KW" (c :: body), c :: body, line, col⟩ :: toks) := by
  have hm : markOf rest = [] := by
    cases rest with
    | nil => rfl
    | cons d t => simp [markOf, (hr d (by simp)).2]
  have := scanned_ident c body rest line col toks hc hb (fun d hd => (hr d hd).1)
    (by rw [hm]; simpa using h)
  rw [hm] at this
  simpa using this

/-! ## The operator rules -/

theorem run_altLits (lits : List (List Char)) (s : List Char) :
    (altLits lits).run s = lits.filterMap (fun x => dropLit x s) := by
  induction lits with
  | nil => cases s <;> simp [altLits]
  | cons x xs ih =>
    cases xs with
    | nil =>
      simp only [altLits, run_str, List.filterMap_cons, List.filterMap_nil]
      cases dropLit x s <;> simp
    | cons y ys =>
      simp only [altLits, run_alt, run_str]
      rw [ih]
      simp only [List.filterMap_cons]
      cases dropLit x s <;> simp

theorem dropLit_append_other (c : Char) (t : List Char) (x : List Char) (hx : ∀ y ∈ x, y ≠ c) :
    ∀ o : List Char, dropLit x (o ++ c :: t) = (dropLit x o).map (fun r => r ++ c :: t) := by
  induction x with
  | nil => intro o; simp [dropLit]
  | cons y x ih =>
    intro o
    have hy : c ≠ y := fun h => hx y (List.mem_cons_self _ _) h.symm
    cases o with
    | nil => simp [dropLit, hy]
    | cons d o =>
      by_cases hd : d = y
      · simp [dropLit, hd, ih (fun z hz => hx z (List.mem_cons_of_mem _ hz)) o]
      · simp [dropLit, hd]

theorem filterMap_dropLit_append (c : Char) (t : List Char) (lits : List (List Char))
    (h : ∀ x ∈ lits, ∀ y ∈ x, y ≠ c) (o : List Char) :
    lits.filterMap (fun x => dropLit x (o ++ c :: t)) =
      (lits.filterMap (fun x => dropLit x o)).map (fun r => r ++ c :: t) := by
  induction lits with
  | nil => rfl
  | cons x xs ih =>
    have hx := dropLit_append_other c t x (h x (List.mem_cons_self _ _)) o
    have := ih (fun z hz => h z (List.mem_cons_of_mem _ hz))
    simp only [List.filterMap_cons, hx, this]
    cases dropLit x o <;> simp

theorem compoundOps_chars : ∀ x ∈ compoundOps, ∀ y ∈ x, isOpChar y = true := by decide

theorem compoundOps_self : ∀ o ∈ compoundOps,
    (compoundOps.filterMap (fun x => dropLit x o)).head? = some [] := by decide

theorem identStart_not_op (c : Char) (h : isIdentStart c = true) : isOpChar c = false := by
  simp [isOpChar, opChars, isIdentStart, inRange, char_eq_iff] at h ⊢
  omega

/-- The compound-operator pattern, run on an operator followed by a character
that no operator contains, takes exactly that operator. -/
theorem opRule_head (o : List Char) (ho : o ∈ compoundOps) (c : Char) (t : List Char)
    (hc : isOpChar c = false) :
    ((altLits compoundOps).run (o ++ c :: t)).head? = some (c :: t) := by
  rw [run_altLits, filterMap_dropLit_append c t compoundOps _ o, List.head?_map,
    compoundOps_self o ho]
  · rfl
  · intro x hx y hy hyc
    have := compoundOps_chars x hx y hy
    rw [hyc, hc] at this
    exact absurd this (by decide)

theorem lazyTails_suffix (p : Char → Bool) (s t : List Char) (h : t ∈ lazyTails p s) :
    ∃ pre, s = pre ++ t := by
  induction s with
  | nil =>
    simp [lazyTails] at h
    exact ⟨[], by simp [h]⟩
  | cons d s ih =>
    by_cases hp : p d = true
    · simp only [lazyTails, hp, if_true, List.mem_cons] at h
      rcases h with rfl | h
      · exact ⟨[], rfl⟩
      · obtain ⟨pre, rfl⟩ := ih h
        exact ⟨d :: pre, rfl⟩
    · have hp2 : p d = false := by simpa using hp
      simp [lazyTails, hp2] at h
      exact ⟨[], by simp [h]⟩

/-- The pattern-literal rule finds no closing slash in a text without slashes. -/
theorem regex_no_close (s : List Char) (hs : ∀ x ∈ s, x ≠ '/') :
    ((Re.seq (.lazyStar (.cls isAny)) (.seq (.str ['/']) (.star (.cls isLetter)))).run s) = [] := by
  simp only [run_seq, run_lazyStar_cls, List.flatMap_eq_nil_iff]
  intro t ht
  obtain ⟨pre, rfl⟩ := lazyTails_suffix _ _ _ ht
  cases t with
  | nil => simp [dropLit]
  | cons y t =>
    have : y ≠ '/' := hs y (by simp)
    simp [dropLit, this]

theorem compoundOps_cases : ∀ o ∈ compoundOps,
    o.head? = some '=' ∨ o.head? = some '!' ∨ o = ['/', '='] ∨ o = [':', ':'] ∨
      (o ≠ [] ∧ ∀ r ∈ rules.take 18, r.re.first (o.headD 'a') = false) := by
  decide

theorem rules_before_op (o : List Char) (ho : o ∈ compoundOps) (h1 : o.head? ≠ some '=')
    (h2 : o.head? ≠ some '!') (c : Char) (body : List Char) (hc : isIdentStart c = true)
    (hb : ∀ x ∈ body, isIdentChar x = true) :
    ∀ r ∈ rules.take 18, r.re.run (o ++ c :: body) = [] := by
  have hslash : ∀ x ∈ c :: body, x ≠ '/' := by
    intro x hx
    rintro rfl
    rcases List.mem_cons.1 hx with h | h
    · rw [← h] at hc
      exact absurd hc (by decide)
    · exact absurd (hb _ h) (by decide)
  rcases compoundOps_cases o ho with h | h | rfl | rfl | ⟨hne, h⟩
  · exact absurd h h1
  · exact absurd h h2
  · intro r hr
    have hsplit : rules.take 18 = rules.take 4 ++ regexRule :: (rules.take 18).drop 5 := rfl
    have hrest : ∀ r ∈ rules.take 4 ++ (rules.take 18).drop 5, r.re.first '/' = false := by
      decide
    rw [hsplit] at hr
    rcases List.mem_append.1 hr with hr | hr
    · exact run_first '/' r.re (hrest r (List.mem_append_left _ hr)) _
    · rcases List.mem_cons.1 hr with rfl | hr
      · have hre := regex_no_close (c :: body) hslash
        have halt : (Re.alt (.str [bs, '/']) (.alt (.seq (.str [bs]) (.cls isDot))
            (.cls isNotSlashNl))).run ('=' :: c :: body) = [c :: body] := by
          have hnot : isNotSlashNl '=' = true := by decide
          have hbs : '=' ≠ bs := by decide
          simp [dropLit, hbs, hnot]
        have hlit : (Re.str ['/']).run (['/', '='] ++ c :: body) = ['=' :: c :: body] := by
          simp [dropLit]
        simp only [regexRule]
        rw [run_seq, hlit, List.flatMap_cons, List.flatMap_nil, List.append_nil, run_seq, halt,
          List.flatMap_cons, List.flatMap_nil, List.append_nil, hre]
      · exact run_first '/' r.re (hrest r (List.mem_append_right _ hr)) _
  · have : isIdentStart ':' = false := by decide
    simp [rules, dropLit, bs, dq, sq, isDigit, inRange, this]
  · intro r hr
    cases o with
    | nil => exact absurd rfl hne
    | cons d o => exact run_first d r.re (h r hr) _

theorem opChar_ne_nul (c : Char) (h : isOpChar c = true) : c ≠ Char.ofNat 0 := by
  rintro rfl
  exact absurd h (by decide)

theorem opChar_ne_newline (c : Char) (h : isOpChar c = true) : c ≠ '\n' := by
  rintro rfl
  exact absurd h (by decide)

theorem compoundOps_head : ∀ o ∈ compoundOps, ∀ d : Char, o.head? = some d → d ≠ '=' → d ≠ '!' →
    isIdentChar d = false ∧ isMark d = false := by
  intro o ho d hd
  have key : ∀ o ∈ compoundOps, ∀ d ∈ o.head?, d ≠ '=' → d ≠ '!' →
      isIdentChar d = false ∧ isMark d = false := by decide
  exact key o ho d hd

theorem firstMatch_compound (o : List Char) (ho : o ∈ compoundOps) (h1 : o.head? ≠ some '=')
    (h2 : o.head? ≠ some '!') (c : Char) (body : List Char) (hc : isIdentStart c = true)
    (hb : ∀ x ∈ body, isIdentChar x = true) :
    firstMatch rules (o ++ c :: body) = some (opRule, o) := by
  rw [rules_split18, firstMatch_append_of_fail _ _ _ (rules_before_op o ho h1 h2 c body hc hb)]
  exact firstMatch_cons_hit opRule _ _ _ (opRule_head o ho c body (identStart_not_op c hc))

/-- One iteration of the loop at a compound operator that is followed by an
identifier word ending the input: the operator becomes one `OP` token. -/
theorem scanned_compound (o : List Char) (ho : o ∈ compoundOps) (h1 : o.head? ≠ some '=')
    (h2 : o.head? ≠ some '!') (c : Char) (body : List Char) (hc : isIdentStart c = true)
    (hb : ∀ x ∈ body, isIdentChar x = true) (line col : Nat) (toks : List Token)
    (h : Scanned (c :: body) line (col + o.length) toks) :
    Scanned (o ++ c :: body) line col (⟨"OP", o, line, col⟩ :: toks) := by
  have hfm := firstMatch_compound o ho h1 h2 c body hc hb
  have hop : ∀ x ∈ o, isOpChar x = true := compoundOps_chars o ho
  have hnul : ∀ x ∈ o ++ c :: body, x ≠ Char.ofNat 0 := by
    intro x hx
    rcases List.mem_append.1 hx with hx | hx
    · exact opChar_ne_nul x (hop x hx)
    · rcases List.mem_cons.1 hx with rfl | hx
      · exact identStart_ne_nul _ hc
      · exact identChar_ne_nul _ (hb x hx)
  have hcs : cstr (o ++ c :: body) = o ++ c :: body := by
    have := cstr_append (o ++ c :: body) [] hnul
    simpa [cstr] using this
  have hpos : update_position o (line, col) = (line, col + o.length) :=
    update_position_flat o (fun x hx => opChar_ne_newline x (hop x hx)) line col
  cases o with
  | nil => exact absurd ho (by decide)
  | cons d o =>
    have hstep : step d (o ++ c :: body) line col =
        (some ⟨"OP", d :: o, line, col⟩, ⟨c :: body, line, col + (d :: o).length⟩) := by
      have hcs2 : cstr (d :: (o ++ c :: body)) = d :: o ++ c :: body := hcs
      have hdrop : (d :: (o ++ c :: body)).drop (d :: o).length = c :: body := by
        have : d :: (o ++ c :: body) = (d :: o) ++ c :: body := rfl
        rw [this, List.drop_left]
      simp only [step, hcs2, hfm, opRule, hpos]
      simp [classify, hdrop]
    have := Scanned.next d (o ++ c :: body) line col toks (by rw [hstep]; exact h)
    rw [hstep] at this
    exact this

/-! ## C1: termination and the bound on the number of tokens -/

theorem scanned_length_le (s : List Char) (line col : Nat) (toks : List Token)
    (h : Scanned s line col toks) : toks.length ≤ s.length := by
  induction h with
  | done line col => simp
  | next c cs line col toks _ ih =>
    have hlt := step_rest_lt c cs line col
    have h1 : (step c cs line col).1.toList.length ≤ 1 := by
      cases (step c cs line col).1 <;> simp
    simp only [List.length_append, List.length_cons] at hlt ⊢
    omega

/-- C1: `tokenize` terminates on every input.  No pattern of the rule table
matches the empty text, so a matching rule consumes at least one character; the
no-match branch consumes exactly one; hence every iteration of the loop moves
the offset forward, `input.length` iterations are enough, and at most
`input.length` tokens are returned. -/
theorem tokenize_terminates :
    (∀ r ∈ rules, ∀ s t : List Char, t ∈ r.re.run s → t.length < s.length) ∧
    (∀ (c : Char) (cs : List Char) (line col : Nat),
      firstMatch rules (cstr (c :: cs)) = none → (step c cs line col).2.rest = cs) ∧
    (∀ (c : Char) (cs : List Char) (line col : Nat),
      ∃ lex, lex ≠ [] ∧ c :: cs = lex ++ (step c cs line col).2.rest) ∧
    (∀ input : List Char, ∃ toks, tokenize input = some toks ∧ toks.length ≤ input.length) := by
  refine ⟨fun r hr s t h => run_progress r.re (rules_nullable r hr) s t h, ?_, ?_, ?_⟩
  · intro c cs line col h
    simp [step, h]
  · intro c cs line col
    obtain ⟨lex, h1, h2, _⟩ := step_spec c cs line col
    exact ⟨lex, h1, h2⟩
  · intro input
    obtain ⟨toks, h1, h2⟩ := tokenize_scanned input
    exact ⟨toks, h1, scanned_length_le _ _ _ _ h2⟩

/-! ## C2, C3, C4: content and positions -/

/-- C2: `tokenize` loses no content.  The input is the emitted lexemes, in
order, interleaved with gaps `g0 .. gn` (the skipped spans) that consist of
whitespace characters only. -/
theorem tokenize_lossless (input : List Char) :
    ∃ (toks : List Token) (gaps : List (List Char)), tokenize input = some toks ∧
      gaps.length = toks.length + 1 ∧ (∀ g ∈ gaps, ∀ c ∈ g, isSpace c = true) ∧
      weave gaps toks = input := by
  obtain ⟨toks, h1, h2⟩ := tokenize_scanned input
  obtain ⟨gaps, h3, h4, h5, _⟩ := scanned_weave _ _ _ _ h2 [] rfl rfl
  exact ⟨toks, gaps, h1, h3, h4, h5⟩

/-- C3: every token carries the position of its first character.  With the
input split into whitespace gaps and lexemes as in C2 and `p` the text in front
of token `i`, the token's line is one more than the number of newlines of `p`
and its column one more than the number of characters of `p` after its last
newline; for instance the word after a two-line block comment, a two-line
string and an empty line is on line 5, column 3. -/
theorem tokenize_positions (input : List Char) :
    (∃ (toks : List Token) (gaps : List (List Char)), tokenize input = some toks ∧
      gaps.length = toks.length + 1 ∧ (∀ g ∈ gaps, ∀ c ∈ g, isSpace c = true) ∧
      weave gaps toks = input ∧
      ∀ (i : Nat) (hi : i < toks.length),
        (∃ rest, input = weave (gaps.take (i + 1)) (toks.take i) ++
          (toks.get ⟨i, hi⟩).lexeme ++ rest) ∧
        (toks.get ⟨i, hi⟩).line = 1 + (weave (gaps.take (i + 1)) (toks.take i)).count '\n' ∧
        (toks.get ⟨i, hi⟩).column =
          1 + ((weave (gaps.take (i + 1)) (toks.take i)).reverse.takeWhile
            (fun c => c != '\n')).length) ∧
    tokenize "=begin\n=end \"a\nb\"\n\n  c".toList =
      some [⟨"COMMENT_BLOCK", "=begin\n=end".toList, 1, 1⟩,
        ⟨"STRING", "\"a\nb\"".toList, 2, 6⟩, ⟨"IDENTIFIER", ['c'], 5, 3⟩] := by
  refine ⟨?_, by decide⟩
  obtain ⟨toks, h1, h2⟩ := tokenize_scanned input
  obtain ⟨gaps, h3, h4, h5, h6⟩ := scanned_weave _ _ _ _ h2 [] rfl rfl
  refine ⟨toks, gaps, h1, h3, h4, h5, ?_⟩
  intro i hi
  refine ⟨⟨weave (gaps.drop (i + 1)) (toks.drop (i + 1)), ?_⟩, ?_⟩
  · rw [← h5]
    exact weave_split toks gaps i hi h3
  · simpa [lineAt, colAt] using h6 i hi

/-- C4: positions never go backwards.  For any two consecutive tokens the line
of the second is at least the line of the first, and `(line, column)` of the
second is not smaller in lexicographic order. -/
theorem tokenize_monotone (input : List Char) :
    ∃ toks, tokenize input = some toks ∧ toks.Chain' notEarlier := by
  obtain ⟨toks, h1, h2⟩ := tokenize_scanned input
  exact ⟨toks, h1, scanned_chain _ _ _ _ h2⟩

/-! ## C5: the classifier -/

/-- C5: `classify` refines only the provisional category.  Text tagged
`IDENT_OR_KW` becomes `KEYWORD` when it is, letter for letter, one of the 41
keywords, else `CONSTANT` when its first character is one of `A`..`Z`, else
`IDENTIFIER`; every other category is returned unchanged whatever the text. -/
theorem classify_spec (rawType : String) (lex : List Char) :
    (lex ∈ keywords → classify "IDENT_OR_KW" lex = "KEYWORD") ∧
    (lex ∉ keywords → (∃ c rest, lex = c :: rest ∧ 'A'.toNat ≤ c.toNat ∧ c.toNat ≤ 'Z'.toNat) →
      classify "IDENT_OR_KW" lex = "CONSTANT") ∧
    (lex ∉ keywords → (¬ ∃ c rest, lex = c :: rest ∧ 'A'.toNat ≤ c.toNat ∧ c.toNat ≤ 'Z'.toNat) →
      classify "IDENT_OR_KW" lex = "IDENTIFIER") ∧
    (rawType ≠ "IDENT_OR_KW" → classify rawType lex = rawType) ∧
    classify "SYMBOL" "class".toList = "SYMBOL" ∧
    keywords.length = 41 ∧
    classify "IDENT_OR_KW" "class".toList = "KEYWORD" ∧
    classify "IDENT_OR_KW" "Class".toList = "CONSTANT" ∧
    classify "IDENT_OR_KW" "CLASS".toList = "CONSTANT" ∧
    classify "IDENT_OR_KW" "BEGIN".toList = "KEYWORD" ∧
    classify "IDENT_OR_KW" "Begin".toList = "CONSTANT" ∧
    classify "IDENT_OR_KW" "foo".toList = "IDENTIFIER" ∧
    classify "IDENT_OR_KW" "_Foo".toList = "IDENTIFIER" ∧
    classify "IDENT_OR_KW" [] = "IDENTIFIER" := by
  refine ⟨?_, ?_, ?_, ?_, by decide, by decide, by decide, by decide, by decide, by decide,
    by decide, by decide, by decide, by decide⟩
  · intro h
    simp [classify, h]
  · rintro h ⟨c, rest, rfl, h1, h2⟩
    have hu : isupper c = true := by
      simp only [isupper, inRange, Bool.and_eq_true, decide_eq_true_eq]
      exact ⟨h1, h2⟩
    simp [classify, h, hu]
  · intro h hn
    cases lex with
    | nil => simp [classify, h]
    | cons c rest =>
      have hu : isupper c = false := by
        cases hc : isupper c with
        | false => rfl
        | true =>
          exfalso
          apply hn
          simp only [isupper, inRange, Bool.and_eq_true, decide_eq_true_eq] at hc
          exact ⟨c, rest, rfl, hc.1, hc.2⟩
      simp [classify, h, hu]
  · intro h
    simp [classify, h]

/-! ## C6: identifier words -/

/-- C6: a word of the identifier pattern is one token.  For every `w` matching
`[A-Za-z_][A-Za-z0-9_]*[!?=]?`, `tokenize w` is the single token `w` at line 1,
column 1, of kind `KEYWORD` if `w` is a keyword, else `CONSTANT` if it starts
with one of `A`..`Z`, else `IDENTIFIER`.  Every keyword of the table is such a
word and gives one `KEYWORD` token; `Foo` is a `CONSTANT`; `foo`, `foo?` and
`foo!` are `IDENTIFIER`s that keep the trailing mark. -/
theorem tokenize_word :
    (∀ w : List Char, isMarkedWord w = true →
      tokenize w = some [⟨if w ∈ keywords then "KEYWORD"
        else if (match w with
          | c :: _ => decide ('A'.toNat ≤ c.toNat ∧ c.toNat ≤ 'Z'.toNat)
          | [] => false) then "CONSTANT"
        else "IDENTIFIER", w, 1, 1⟩]) ∧
    (∀ k ∈ keywords, tokenize k = some [⟨"KEYWORD", k, 1, 1⟩]) ∧
    tokenize "defined?".toList = some [⟨"KEYWORD", "defined?".toList, 1, 1⟩] ∧
    tokenize "__FILE__".toList = some [⟨"KEYWORD", "__FILE__".toList, 1, 1⟩] ∧
    tokenize "BEGIN".toList = some [⟨"KEYWORD", "BEGIN".toList, 1, 1⟩] ∧
    tokenize "Foo".toList = some [⟨"CONSTANT", "Foo".toList, 1, 1⟩] ∧
    tokenize "foo".toList = some [⟨"IDENTIFIER", "foo".toList, 1, 1⟩] ∧
    tokenize "foo?".toList = some [⟨"IDENTIFIER", "foo?".toList, 1, 1⟩] ∧
    tokenize "foo!".toList = some [⟨"IDENTIFIER", "foo!".toList, 1, 1⟩] := by
  have key : ∀ w : List Char, isMarkedWord w = true →
      tokenize w = some [⟨if w ∈ keywords then "KEYWORD"
        else if (match w with
          | c :: _ => decide ('A'.toNat ≤ c.toNat ∧ c.toNat ≤ 'Z'.toNat)
          | [] => false) then "CONSTANT"
        else "IDENTIFIER", w, 1, 1⟩] := by
    intro w hw
    rw [tokenize_marked w hw]
    congr 3
    cases w with
    | nil => simp [isMarkedWord, isIdentWord] at hw
    | cons c r =>
      simp only [classify, if_true, isupper, inRange, Bool.and_eq_true, decide_eq_true_eq,
        Bool.decide_and]
  refine ⟨key, ?_, ?_, ?_, ?_, ?_, ?_, ?_, ?_⟩
  · intro k hk
    have hm : ∀ k ∈ keywords, isMarkedWord k = true := by decide
    rw [key k (hm k hk), if_pos hk]
  all_goals exact (key _ (by decide)).trans (by decide)

/-! ## C7: compound operators on their own -/

/-- C7: every compound operator on its own is one `OP` token at line 1,
column 1; none is split and none is taken by an earlier rule. -/
theorem tokenize_compound :
    ∀ o ∈ (["<=>", "===", "<<=", ">>=", "**=", "&&=", "||=", "+=", "-=", "*=", "/=", "%=", "&=",
        "|=", "^=", "<=", ">=", "==", "!=", "=~", "!~", "...", "::", "=>", "**", "<<", ">>", "&&",
        "||", "&.", ".."] : List String),
      tokenize o.toList = some [⟨"OP", o.toList, 1, 1⟩] := by
  decide

/-- C7 at the operator `<=>`: one `OP` token, not three. -/
theorem tokenize_compound_witness :
    "<=>" ∈ (["<=>", "===", "<<=", ">>=", "**=", "&&=", "||=", "+=", "-=", "*=", "/=", "%=", "&=",
        "|=", "^=", "<=", ">=", "==", "!=", "=~", "!~", "...", "::", "=>", "**", "<<", ">>", "&&",
        "||", "&.", ".."] : List String) ∧
      tokenize "<=>".toList = some [⟨"OP", "<=>".toList, 1, 1⟩] :=
  ⟨by decide, tokenize_compound "<=>" (by decide)⟩

/-! ## C8: compound operators between operands -/

/-- C8, as the code has it: a compound operator that does not begin with `=` or
`!`, written between two identifier words with nothing in between, is one `OP`
token between the tokens of the two words.  When the operator begins with `=`
or `!`, that character is the optional trailing mark of the identifier pattern
and the first token is the word `a` together with it. -/
theorem tokenize_operand_compound :
    (∀ o ∈ (["<=>", "===", "<<=", ">>=", "**=", "&&=", "||=", "+=", "-=", "*=", "/=", "%=", "&=",
        "|=", "^=", "<=", ">=", "==", "!=", "=~", "!~", "...", "::", "=>", "**", "<<", ">>", "&&",
        "||", "&.", ".."] : List String),
      o.toList.head? ≠ some '=' → o.toList.head? ≠ some '!' →
      ∀ a b : List Char, isIdentWord a = true → isIdentWord b = true →
        tokenize (a ++ o.toList ++ b) = some [⟨classify "IDENT_OR_KW" a, a, 1, 1⟩,
          ⟨"OP", o.toList, 1, 1 + a.length⟩,
          ⟨classify "IDENT_OR_KW" b, b, 1, 1 + a.length + o.toList.length⟩]) ∧
    (∀ (m : Char) (o a b : List Char), m = '=' ∨ m = '!' → isIdentWord a = true →
      ∃ toks, tokenize (a ++ (m :: o) ++ b) =
        some (⟨classify "IDENT_OR_KW" (a ++ [m]), a ++ [m], 1, 1⟩ :: toks)) ∧
    tokenize "a<=>b".toList = some [⟨"IDENTIFIER", ['a'], 1, 1⟩, ⟨"OP", "<=>".toList, 1, 2⟩,
      ⟨"IDENTIFIER", ['b'], 1, 5⟩] := by
  refine ⟨?_, ?_, by decide⟩
  rotate_left
  · intro m o a b hm ha
    obtain ⟨c, body, rfl, hc, hbody⟩ := (isIdentWord_iff a).1 ha
    have hmk : isMark m = true := by
      rcases hm with rfl | rfl <;> decide
    have hmi : isIdentChar m = false := by
      rcases hm with rfl | rfl <;> decide
    obtain ⟨toks, h1, h2⟩ := tokenize_scanned (c :: (body ++ (m :: (o ++ b))))
    have hs := step_ident c body (m :: (o ++ b)) 1 1 hc hbody (by simpa using hmi)
    cases h2 with
    | next _ _ _ _ toks2 h3 =>
      rw [hs] at h1
      refine ⟨toks2, ?_⟩
      simpa [markOf, hmk] using h1
  intro o ho h1 h2 a b ha hb
  have ho2 : o.toList ∈ compoundOps := List.mem_map_of_mem String.toList ho
  obtain ⟨c, body, rfl, hc, hbody⟩ := (isIdentWord_iff a).1 ha
  obtain ⟨c2, body2, rfl, hc2, hbody2⟩ := (isIdentWord_iff b).1 hb
  have hne : o.toList ≠ [] := by
    rintro h
    rw [h] at ho2
    exact absurd ho2 (by decide)
  have hopc : ∀ x ∈ o.toList, isOpChar x = true := compoundOps_chars _ ho2
  apply tokenize_of_scanned
  have h3 := scanned_ident_end c2 body2 1 (1 + (c :: body).length + o.toList.length) hc2 hbody2
  have h2' := scanned_compound o.toList ho2 h1 h2 c2 body2 hc2 hbody2 1 (1 + (c :: body).length) _ h3
  have hhead : ∀ d ∈ (o.toList ++ c2 :: body2).head?, isIdentChar d = false ∧ isMark d = false := by
    intro d hd
    have hd2 : o.toList.head? = some d := by
      cases hol : o.toList with
      | nil => exact absurd hol hne
      | cons y ys =>
        rw [hol] at hd
        simpa using hd
    have h1d : d ≠ '=' := fun h => h1 (by rw [hd2, h])
    have h2d : d ≠ '!' := fun h => h2 (by rw [hd2, h])
    exact compoundOps_head _ ho2 d hd2 h1d h2d
  have h1' := scanned_ident_then c body (o.toList ++ c2 :: body2) 1 1 _ hc hbody hhead h2'
  simpa using h1'

/-- C8 as stated fails: in `a==b` the identifier pattern takes the first `=` as
the trailing mark of `a`, and the operator `==` is split. -/
theorem operand_compound_counterexample :
    "==".toList ∈ compoundOps ∧ isIdentWord ['a'] = true ∧ isIdentWord ['b'] = true ∧
    tokenize (['a'] ++ "==".toList ++ ['b']) = some [⟨"IDENTIFIER", "a=".toList, 1, 1⟩,
      ⟨"OP", ['='], 1, 3⟩, ⟨"IDENTIFIER", ['b'], 1, 4⟩] ∧
    ¬ ∃ t1 t2 t3 : Token, tokenize (['a'] ++ "==".toList ++ ['b']) = some [t1, t2, t3] ∧
      t1.lexeme = ['a'] ∧ t2.type = "OP" ∧ t2.lexeme = "==".toList ∧ t3.lexeme = ['b'] := by
  have h : tokenize (['a'] ++ "==".toList ++ ['b']) = some [⟨"IDENTIFIER", "a=".toList, 1, 1⟩,
      ⟨"OP", ['='], 1, 3⟩, ⟨"IDENTIFIER", ['b'], 1, 4⟩] := by decide
  refine ⟨by decide, by decide, by decide, h, ?_⟩
  rintro ⟨t1, t2, t3, ht, h1, -, -, -⟩
  rw [h] at ht
  simp only [Option.some.injEq, List.cons.injEq, and_true] at ht
  rw [← ht.1] at h1
  exact absurd h1 (by decide)

/-! ## C9: whitespace -/

/-- C9: whitespace is consumed and never emitted.  For identifier words `a` and
`b` and a non-empty run `w` of whitespace characters, `tokenize (a ++ w ++ b)`
is the token `a` followed by the token `b`, each of the kind the classifier
gives it, `b` at the position reached after `a ++ w`; for `a   b` both are
`IDENTIFIER`. -/
theorem tokenize_whitespace :
    (∀ a w b : List Char, isIdentWord a = true → isIdentWord b = true → w ≠ [] →
      (∀ x ∈ w, x ∈ [' ', '\t', '\n', '\r', Char.ofNat 11, Char.ofNat 12]) →
      tokenize (a ++ w ++ b) = some [⟨classify "IDENT_OR_KW" a, a, 1, 1⟩,
        ⟨classify "IDENT_OR_KW" b, b, (update_position (a ++ w) (1, 1)).1,
          (update_position (a ++ w) (1, 1)).2⟩]) ∧
    tokenize "a   b".toList =
      some [⟨"IDENTIFIER", ['a'], 1, 1⟩, ⟨"IDENTIFIER", ['b'], 1, 5⟩] := by
  refine ⟨?_, by decide⟩
  intro a w b ha hb hw hsp
  obtain ⟨c, body, rfl, hc, hbody⟩ := (isIdentWord_iff a).1 ha
  obtain ⟨c2, body2, rfl, hc2, hbody2⟩ := (isIdentWord_iff b).1 hb
  have hsp2 : ∀ x ∈ w, isSpace x = true := by
    intro x hx
    have := hsp x hx
    simp only [List.mem_cons, List.mem_singleton, List.not_mem_nil, or_false] at this
    rcases this with rfl | rfl | rfl | rfl | rfl | rfl <;> decide
  cases w with
  | nil => exact absurd rfl hw
  | cons w0 ws =>
    have h0 : isSpace w0 = true := hsp2 w0 (List.mem_cons_self _ _)
    have hws : ∀ x ∈ ws, isSpace x = true := fun x hx => hsp2 x (List.mem_cons_of_mem _ hx)
    apply tokenize_of_scanned
    have hpos : update_position (c :: body ++ w0 :: ws) (1, 1) =
        update_position (w0 :: ws) (1, 1 + (c :: body).length) := by
      rw [update_position_append, update_position_flat (c :: body)]
      intro x hx
      exact identWord_no_newline c body [] hc hbody x (by simpa [markOf] using hx)
    rw [hpos]
    have h3 := scanned_ident_end c2 body2
      (update_position (w0 :: ws) (1, 1 + (c :: body).length)).1
      (update_position (w0 :: ws) (1, 1 + (c :: body).length)).2 hc2 hbody2
    have h2 := scanned_ws w0 ws (c2 :: body2) 1 (1 + (c :: body).length) _ h0 hws
      (by simpa using identStart_not_space c2 hc2) h3
    have h1 := scanned_ident_then c body (w0 :: ws ++ c2 :: body2) 1 1 _ hc hbody
      (by simpa using ⟨space_not_identChar w0 h0, space_not_mark w0 h0⟩) h2
    simpa using h1

/-! ## C10: the kinds of the output -/

/-- C10: every kind in the output is one of the 18 output names; `WS` and
`IDENT_OR_KW` are not among them and so never appear. -/
theorem tokenize_kinds (input : List Char) :
    ∃ toks, tokenize input = some toks ∧
      ∀ t ∈ toks, t.type ∈ ["COMMENT_BLOCK", "COMMENT", "STRING", "REGEX", "SYMBOL", "CLASS_VAR",
        "INSTANCE_VAR", "GLOBAL_VAR", "NUMBER_HEX", "NUMBER_BIN", "NUMBER_OCT", "NUMBER_FLOAT",
        "NUMBER_INT", "OP", "KEYWORD", "CONSTANT", "IDENTIFIER", "ERROR"] ∧
        t.type ≠ "WS" ∧ t.type ≠ "IDENT_OR_KW" := by
  obtain ⟨toks, h1, h2⟩ := tokenize_scanned input
  refine ⟨toks, h1, fun t ht => ?_⟩
  have hk := scanned_kinds _ _ _ _ h2 t ht
  refine ⟨hk, ?_, ?_⟩
  · rintro h
    rw [h] at hk
    exact absurd hk (by decide)
  · rintro h
    rw [h] at hk
    exact absurd hk (by decide)

/-! ## C15 and C16: the position tracker and the output escaping -/

theorem update_position_snoc (s : List Char) (c : Char) (line col : Nat) :
    update_position (s ++ [c]) (line, col) =
      if c = '\n' then ((update_position s (line, col)).1 + 1, 1)
      else ((update_position s (line, col)).1, (update_position s (line, col)).2 + 1) := by
  rw [update_position_append]
  by_cases hc : c = '\n' <;> simp [update_position, hc]

theorem update_position_line (s : List Char) (line col : Nat) :
    (update_position s (line, col)).1 = line + s.count '\n' := by
  induction s generalizing line col with
  | nil => simp [update_position]
  | cons c s ih =>
    by_cases hc : c = '\n'
    · subst hc
      simp only [update_position, if_true, ih, List.count_cons_self]
      omega
    · simp only [update_position, hc, if_false, ih]
      rw [List.count_cons_of_ne (Ne.symm hc)]

theorem update_position_col (s : List Char) (line col : Nat) :
    (update_position s (line, col)).2 =
      if '\n' ∈ s then 1 + (s.reverse.takeWhile (fun c => c != '\n')).length
      else col + s.length := by
  induction s using List.reverseRecOn with
  | nil => simp [update_position]
  | append_singleton s c ih =>
    rw [update_position_snoc]
    by_cases hc : c = '\n'
    · subst hc
      simp
    · have hc2 : ('\n' ∈ s ++ [c]) ↔ '\n' ∈ s := by
        simp [Ne.symm hc]
      simp only [hc, if_false, ih, hc2]
      by_cases hn : '\n' ∈ s
      · simp only [hn, if_true, List.reverse_append, List.reverse_cons, List.reverse_nil,
          List.nil_append, List.singleton_append]
        rw [List.takeWhile_cons]
        simp [hc]
        omega
      · simp only [hn, if_false, List.length_append, List.length_singleton]
        omega

theorem update_position_sz_eq (w : Nat) (s : List Char) :
    ∀ line col : Nat, line + s.length < 2 ^ w → col + s.length < 2 ^ w →
      update_position_sz w s (line, col) = update_position s (line, col) := by
  induction s with
  | nil => intro line col _ _; rfl
  | cons c s ih =>
    intro line col hl hc
    simp only [List.length_cons] at hl hc
    by_cases hn : c = '\n'
    · simp only [update_position_sz, update_position, hn, if_true]
      rw [Nat.mod_eq_of_lt (by omega)]
      exact ih (line + 1) 1 (by omega) (by omega)
    · simp only [update_position_sz, update_position, hn, if_false]
      rw [Nat.mod_eq_of_lt (by omega)]
      exact ih line (col + 1) (by omega) (by omega)

theorem update_position_sz_append (w : Nat) (s t : List Char) (lc : Nat × Nat) :
    update_position_sz w (s ++ t) lc = update_position_sz w t (update_position_sz w s lc) := by
  induction s generalizing lc with
  | nil => rfl
  | cons x s ih =>
    obtain ⟨l, c⟩ := lc
    by_cases hx : x = '\n'
    · simp [update_position_sz, hx, ih]
    · simp [update_position_sz, hx, ih]

theorem update_position_sz_snoc (w : Nat) (s : List Char) (c : Char) (line col : Nat) :
    update_position_sz w (s ++ [c]) (line, col) =
      if c = '\n' then (((update_position_sz w s (line, col)).1 + 1) % 2 ^ w, 1)
      else ((update_position_sz w s (line, col)).1,
        ((update_position_sz w s (line, col)).2 + 1) % 2 ^ w) := by
  rw [update_position_sz_append]
  by_cases hc : c = '\n' <;> simp [update_position_sz, hc]

theorem update_position_sz_line (w : Nat) (s : List Char) :
    ∀ line col : Nat, line < 2 ^ w →
      (update_position_sz w s (line, col)).1 = (line + s.count '\n') % 2 ^ w := by
  induction s with
  | nil =>
    intro line col hl
    simp [update_position_sz, Nat.mod_eq_of_lt hl]
  | cons c s ih =>
    intro line col hl
    have hpos : 0 < 2 ^ w := Nat.pos_of_ne_zero (by positivity)
    by_cases hc : c = '\n'
    · subst hc
      simp only [update_position_sz, if_true, List.count_cons_self]
      rw [ih _ _ (Nat.mod_lt _ hpos), Nat.mod_add_mod]
      congr 1
      omega
    · simp only [update_position_sz, hc, if_false]
      rw [ih _ _ hl, List.count_cons_of_ne (Ne.symm hc)]

theorem update_position_sz_col (w : Nat) (s : List Char) (line col : Nat) (hw : 0 < w)
    (hc : col < 2 ^ w) :
    (update_position_sz w s (line, col)).2 =
      if '\n' ∈ s then (1 + (s.reverse.takeWhile (fun c => c != '\n')).length) % 2 ^ w
      else (col + s.length) % 2 ^ w := by
  have h1 : 1 < 2 ^ w := Nat.one_lt_two_pow (by omega)
  induction s using List.reverseRecOn with
  | nil => simp [update_position_sz, Nat.mod_eq_of_lt hc]
  | append_singleton s c ih =>
    rw [update_position_sz_snoc]
    by_cases hn : c = '\n'
    · subst hn
      simp [Nat.mod_eq_of_lt h1]
    · have hc2 : ('\n' ∈ s ++ [c]) ↔ '\n' ∈ s := by
        simp [Ne.symm hn]
      simp only [hn, if_false, ih, hc2]
      by_cases hs : '\n' ∈ s
      · simp only [hs, if_true, List.reverse_append, List.reverse_cons, List.reverse_nil,
          List.nil_append, List.singleton_append]
        rw [List.takeWhile_cons, Nat.mod_add_mod]
        simp [hn]
        congr 1
      · simp only [hs, if_false, List.length_append, List.length_singleton]
        rw [Nat.mod_add_mod]
        congr 1

theorem update_position_le (s : List Char) :
    ∀ line col : Nat, (update_position s (line, col)).1 ≤ line + s.length ∧
      (update_position s (line, col)).2 ≤ col + s.length := by
  induction s with
  | nil => intro line col; simp [update_position]
  | cons c s ih =>
    intro line col
    by_cases hc : c = '\n'
    · have := ih (line + 1) 1
      simp only [update_position, hc, if_true, List.length_cons]
      omega
    · have := ih line (col + 1)
      simp only [update_position, hc, if_false, List.length_cons]
      omega

theorem cstr_length_le (s : List Char) : (cstr s).length ≤ s.length := by
  have := congrArg List.length (cstr_append_dropWhile s)
  simp only [List.length_append] at this
  omega

theorem step_sz_eq (w : Nat) (c : Char) (cs : List Char) (line col : Nat)
    (hl : line + (c :: cs).length < 2 ^ w) (hc : col + (c :: cs).length < 2 ^ w) :
    step_sz w c cs line col = step c cs line col := by
  unfold step_sz step
  cases hfm : firstMatch rules (cstr (c :: cs)) with
  | none =>
    simp only
    rw [update_position_sz_eq w [c] line col (by simp at hl ⊢; omega) (by simp at hc ⊢; omega)]
  | some p =>
    obtain ⟨rule, lex⟩ := p
    obtain ⟨_, rest, _, hs⟩ := firstMatch_spec _ _ _ _ hfm
    have hlen : lex.length ≤ (c :: cs).length := by
      have h1 := congrArg List.length hs
      have h2 := cstr_length_le (c :: cs)
      simp only [List.length_append] at h1
      omega
    simp only
    rw [update_position_sz_eq w lex line col (by omega) (by omega)]

theorem tokenizeLoop_sz_eq (w : Nat) : ∀ (fuel : Nat) (s : List Char) (line col : Nat),
    line + s.length < 2 ^ w → col + s.length < 2 ^ w →
      tokenizeLoop_sz w fuel s line col = tokenizeLoop fuel s line col := by
  intro fuel
  induction fuel with
  | zero =>
    intro s line col _ _
    cases s <;> rfl
  | succ n ih =>
    intro s line col hl hc
    cases s with
    | nil => rfl
    | cons c cs =>
      obtain ⟨lex, _, hs, hpos, _⟩ := step_spec c cs line col
      have hle := update_position_le lex line col
      rw [← hpos] at hle
      have hlen := congrArg List.length hs
      simp only [List.length_append] at hlen
      simp only [tokenizeLoop_sz, tokenizeLoop, step_sz_eq w c cs line col hl hc]
      rw [ih _ _ _ (by simp only at hle; omega) (by simp only at hle; omega)]

/-- The natural-number counters of `tokenize` are the `size_t` counters of the
source: on an input shorter than `2 ^ w - 1` no counter wraps and the scanner
with counters of `w` bits returns the same tokens. -/
theorem tokenize_sz_eq (w : Nat) (input : List Char) (h : input.length + 1 < 2 ^ w) :
    tokenize_sz w input = tokenize input :=
  tokenizeLoop_sz_eq w _ input 1 1 (by omega) (by omega)

/-- C15: `update_position` with its `size_t` counters of `w` bits, for every
text and every starting line and column.  It walks the text from left to right;
a newline increments the line and sets the column to 1, any other character
increments the column, increments being those of `size_t`.  Hence the line ends
at `line + (number of newlines)`, and the column at `col + |s|` when the text
has no newline and at one more than the number of characters after the last
newline otherwise, all in `size_t` arithmetic, that is modulo `2 ^ w`; when
`line + |s|` and `col + |s|` are below `2 ^ w` nothing wraps and these are the
plain sums. -/
theorem update_position_spec (w : Nat) (s : List Char) (line col : Nat) (hw : 0 < w)
    (hl : line < 2 ^ w) (hc : col < 2 ^ w) :
    update_position_sz w [] (line, col) = (line, col) ∧
    (∀ c : Char, update_position_sz w (s ++ [c]) (line, col) =
      if c = '\n' then (((update_position_sz w s (line, col)).1 + 1) % 2 ^ w, 1)
      else ((update_position_sz w s (line, col)).1,
        ((update_position_sz w s (line, col)).2 + 1) % 2 ^ w)) ∧
    (update_position_sz w s (line, col)).1 = (line + s.count '\n') % 2 ^ w ∧
    ('\n' ∉ s → (update_position_sz w s (line, col)).2 = (col + s.length) % 2 ^ w) ∧
    ('\n' ∈ s → (update_position_sz w s (line, col)).2 =
      (1 + (s.reverse.takeWhile (fun c => c != '\n')).length) % 2 ^ w) ∧
    (line + s.length < 2 ^ w → col + s.length < 2 ^ w →
      (update_position_sz w s (line, col)).1 = line + s.count '\n' ∧
      ('\n' ∉ s → (update_position_sz w s (line, col)).2 = col + s.length) ∧
      ('\n' ∈ s → (update_position_sz w s (line, col)).2 =
        1 + (s.reverse.takeWhile (fun c => c != '\n')).length)) := by
  refine ⟨rfl, fun c => update_position_sz_snoc w s c line col,
    update_position_sz_line w s line col hl, ?_, ?_, ?_⟩
  · intro h
    rw [update_position_sz_col w s line col hw hc, if_neg h]
  · intro h
    rw [update_position_sz_col w s line col hw hc, if_pos h]
  · intro h1 h2
    rw [update_position_sz_eq w s line col h1 h2]
    refine ⟨update_position_line s line col, ?_, ?_⟩
    · intro h
      rw [update_position_col, if_neg h]
    · intro h
      rw [update_position_col, if_pos h]

/-- C15 at counters about to wrap: from line and column `2 ^ 64 - 1` the text
`a`, newline, `b` leads to line 0 and column 2, and from line 1, column 1 the
text `ab`, newline, `cd`, two newlines, `xyz` leads to line 4, column 4. -/
theorem update_position_spec_witness :
    0 < 64 ∧ 2 ^ 64 - 1 < 2 ^ 64 ∧
    update_position_sz 64 "a\nb".toList (2 ^ 64 - 1, 2 ^ 64 - 1) = (0, 2) ∧
    update_position_sz 64 "ab\ncd\n\nxyz".toList (1, 1) = (4, 4) ∧
    update_position_sz 64 "abc".toList (7, 5) = (7, 8) ∧
    (update_position_sz 64 "a\nb".toList (2 ^ 64 - 1, 2 ^ 64 - 1)).1 =
      (2 ^ 64 - 1 + "a\nb".toList.count '\n') % 2 ^ 64 :=
  ⟨by decide, by decide, by decide, by decide, by decide,
    (update_position_spec 64 "a\nb".toList (2 ^ 64 - 1) (2 ^ 64 - 1) (by decide) (by decide)
      (by decide)).2.2.1⟩

theorem escape_foldl (s acc : List Char) :
    s.foldl (fun out c =>
      if c = '\n' then out ++ [bs, 'n']
      else if c = '\r' then out ++ [bs, 'r']
      else if c = '\t' then out ++ [bs, 't']
      else out ++ [c]) acc = acc ++ s.flatMap escapeOne := by
  induction s generalizing acc with
  | nil => simp
  | cons c s ih =>
    simp only [List.foldl_cons, ih, List.flatMap_cons, escapeOne]
    by_cases h1 : c = '\n'
    · simp [h1]
    · by_cases h2 : c = '\r'
      · simp [h1, h2]
      · by_cases h3 : c = '\t'
        · simp [h1, h2, h3]
        · simp [h1, h2, h3]

theorem escape_eq_flatMap (s : List Char) : escape_for_output s = s.flatMap escapeOne := by
  simp [escape_for_output, escape_foldl]

theorem escapeOne_clean (c x : Char) (hx : x ∈ escapeOne c) :
    x ≠ '\n' ∧ x ≠ '\r' ∧ x ≠ '\t' := by
  unfold escapeOne at hx
  split at hx
  · simp at hx
    rcases hx with rfl | rfl <;> decide
  · split at hx
    · simp at hx
      rcases hx with rfl | rfl <;> decide
    · split at hx
      · simp at hx
        rcases hx with rfl | rfl <;> decide
      · simp at hx
        subst hx
        exact ⟨by assumption, by assumption, by assumption⟩

theorem escapeOne_length (c : Char) :
    (escapeOne c).length = 1 + (if c = '\n' ∨ c = '\r' ∨ c = '\t' then 1 else 0) := by
  unfold escapeOne
  by_cases h1 : c = '\n'
  · simp [h1]
  · by_cases h2 : c = '\r'
    · simp [h1, h2]
    · by_cases h3 : c = '\t'
      · simp [h1, h2, h3]
      · simp [h1, h2, h3]

/-- C16: `escape_for_output` replaces, in order, each newline, carriage return
and tab by the two characters backslash-`n`, backslash-`r`, backslash-`t` and
copies every other character, quotes and backslashes included.  The result has
no newline, carriage return or tab, and its length is the length of the text
plus the number of characters replaced. -/
theorem escape_for_output_spec (s : List Char) :
    escape_for_output s = s.flatMap (fun c =>
      if c = '\n' then [Char.ofNat 92, 'n'] else if c = '\r' then [Char.ofNat 92, 'r']
      else if c = '\t' then [Char.ofNat 92, 't'] else [c]) ∧
    (∀ x ∈ escape_for_output s, x ≠ '\n' ∧ x ≠ '\r' ∧ x ≠ '\t') ∧
    (escape_for_output s).length =
      s.length + (s.filter (fun c => c = '\n' ∨ c = '\r' ∨ c = '\t')).length ∧
    escape_for_output [Char.ofNat 34, 'a', '\n', Char.ofNat 92, '\t', Char.ofNat 39, '\r'] =
      [Char.ofNat 34, 'a', Char.ofNat 92, 'n', Char.ofNat 92, Char.ofNat 92, 't', Char.ofNat 39,
        Char.ofNat 92, 'r'] := by
  refine ⟨escape_eq_flatMap s, ?_, ?_, by decide⟩
  · intro x hx
    rw [escape_eq_flatMap, List.mem_flatMap] at hx
    obtain ⟨c, _, hc⟩ := hx
    exact escapeOne_clean c x hc
  · rw [escape_eq_flatMap]
    induction s with
    | nil => rfl
    | cons c s ih =>
      simp only [List.flatMap_cons, List.length_append, ih, escapeOne_length, List.length_cons,
        List.filter_cons]
      by_cases h : c = '\n' ∨ c = '\r' ∨ c = '\t'
      · simp [h]
        omega
      · simp [h]
        omega

/-! ## Steps of the loop, in general -/

theorem rules_named : rules = [cbRule, commentRule, stringRule] ++ (rules.drop 3).take 9 ++
    [hexRule, binRule, octRule, float1Rule, float2Rule, intRule, opRule, op1Rule, identRule,
      wsRule] := rfl

/-- The step taken when a rule that is not skipped matches `lex`. -/
theorem step_emit (rule : Rule) (c : Char) (l rest : List Char) (line col : Nat)
    (hnul : ∀ x ∈ c :: l, x ≠ Char.ofNat 0)
    (hfm : firstMatch rules ((c :: l) ++ cstr rest) = some (rule, c :: l))
    (hskip : rule.skip = false) :
    step c (l ++ rest) line col =
      (some ⟨classify rule.type (c :: l), c :: l, line, col⟩,
        ⟨rest, (update_position (c :: l) (line, col)).1,
          (update_position (c :: l) (line, col)).2⟩) := by
  have hcs : cstr (c :: (l ++ rest)) = (c :: l) ++ cstr rest := cstr_append (c :: l) rest hnul
  have hdrop : (c :: (l ++ rest)).drop (c :: l).length = rest := by
    have : c :: (l ++ rest) = (c :: l) ++ rest := rfl
    rw [this, List.drop_left]
  simp only [step, hcs, hfm, hskip]
  simp [hdrop]

/-- The step taken when no rule matches. -/
theorem step_error (c : Char) (cs : List Char) (line col : Nat)
    (hfm : firstMatch rules (cstr (c :: cs)) = none) :
    step c cs line col =
      (some ⟨"ERROR", [c], line, col⟩,
        ⟨cs, (update_position [c] (line, col)).1, (update_position [c] (line, col)).2⟩) := by
  simp [step, hfm]

theorem scanned_of_step (c : Char) (cs : List Char) (line col : Nat) (tk : Option Token)
    (st : Scan) (toks : List Token) (hs : step c cs line col = (tk, st))
    (h : Scanned st.rest st.line st.col toks) : Scanned (c :: cs) line col (tk.toList ++ toks) := by
  have := Scanned.next c cs line col toks (by rw [hs]; exact h)
  rw [hs] at this
  exact this

theorem scanned_emit (rule : Rule) (lex rest : List Char) (line col : Nat) (toks : List Token)
    (hne : lex ≠ []) (hnul : ∀ x ∈ lex, x ≠ Char.ofNat 0)
    (hfm : firstMatch rules (lex ++ cstr rest) = some (rule, lex)) (hskip : rule.skip = false)
    (h : Scanned rest (update_position lex (line, col)).1 (update_position lex (line, col)).2
      toks) :
    Scanned (lex ++ rest) line col (⟨classify rule.type lex, lex, line, col⟩ :: toks) := by
  cases lex with
  | nil => exact absurd rfl hne
  | cons c l =>
    exact scanned_of_step c (l ++ rest) line col _ _ toks
      (step_emit rule c l rest line col hnul hfm hskip) h

theorem scanned_error (c : Char) (cs : List Char) (line col : Nat) (toks : List Token)
    (hfm : firstMatch rules (cstr (c :: cs)) = none)
    (h : Scanned cs (update_position [c] (line, col)).1 (update_position [c] (line, col)).2
      toks) :
    Scanned (c :: cs) line col (⟨"ERROR", [c], line, col⟩ :: toks) :=
  scanned_of_step c cs line col _ _ toks (step_error c cs line col hfm) h

theorem firstMatch_none (rs : List Rule) (s : List Char) (h : ∀ r ∈ rs, r.re.run s = []) :
    firstMatch rs s = none := by
  have := firstMatch_append_of_fail rs [] s h
  simpa [firstMatch] using this

/-- What `firstMatch` returns: the rule at some index `i` of the table, all rules
before it failing, with the text its pattern takes first. -/
theorem firstMatch_index (rs : List Rule) (s : List Char) (r : Rule) (lex : List Char)
    (h : firstMatch rs s = some (r, lex)) :
    ∃ i, rs[i]? = some r ∧ (∀ q ∈ rs.take i, q.re.run s = []) ∧
      ∃ rest, (r.re.run s).head? = some rest ∧ s = lex ++ rest := by
  induction rs with
  | nil => simp [firstMatch] at h
  | cons r0 rs ih =>
    cases hrun : (r0.re.run s).head? with
    | some rest =>
      have h2 := h
      simp only [firstMatch, hrun, Option.some.injEq, Prod.mk.injEq] at h2
      obtain ⟨rfl, rfl⟩ := h2
      refine ⟨0, by simp, by simp, rest, hrun, ?_⟩
      obtain ⟨pre, rfl⟩ := run_suffix r0.re s rest (List.mem_of_mem_head? hrun)
      simp
    | none =>
      have hnil : r0.re.run s = [] := by simpa using hrun
      simp only [firstMatch, hrun] at h
      obtain ⟨i, h1, h2, h3⟩ := ih h
      refine ⟨i + 1, by simpa using h1, ?_, h3⟩
      intro q hq
      simp only [List.take_succ_cons, List.mem_cons] at hq
      rcases hq with rfl | hq
      · exact hnil
      · exact h2 q hq

/-- The token a step pushes is the `ERROR` token of the no-match branch or the
token of the first matching rule. -/
theorem step_token (c : Char) (cs : List Char) (line col : Nat) (t : Token)
    (h : (step c cs line col).1 = some t) :
    (firstMatch rules (cstr (c :: cs)) = none ∧ t = ⟨"ERROR", [c], line, col⟩) ∨
    ∃ rule lex, firstMatch rules (cstr (c :: cs)) = some (rule, lex) ∧ rule.skip = false ∧
      t = ⟨classify rule.type lex, lex, line, col⟩ := by
  unfold step at h
  split at h
  · rename_i rule lex hfm
    right
    cases hsk : rule.skip with
    | true => simp [hsk] at h
    | false =>
      simp only [hsk] at h
      exact ⟨rule, lex, hfm, hsk, by simpa using h.symm⟩
  · rename_i hfm
    left
    exact ⟨hfm, by simpa using h.symm⟩

/-- A property of every pushed token that each step guarantees holds of every
token of a scan. -/
theorem scanned_forall (P : Token → Prop)
    (hP : ∀ c cs line col t, (step c cs line col).1 = some t → P t)
    (s : List Char) (line col : Nat) (toks : List Token) (h : Scanned s line col toks) :
    ∀ t ∈ toks, P t := by
  induction h with
  | done line col => simp
  | next c cs line col toks _ ih =>
    intro t ht
    rcases List.mem_append.1 ht with ht | ht
    · exact hP c cs line col t (by simpa using ht)
    · exact ih t ht

/-! ## Lazy stars and the one-character operator rule -/

theorem isAny_true (c : Char) : isAny c = true := by
  simp [isAny]

theorem lazyTails_isAny_cons (d : Char) (t : List Char) :
    lazyTails isAny (d :: t) = (d :: t) :: lazyTails isAny t := by
  simp [lazyTails, isAny_true]

/-- A lazy `[\s\S]*?` followed by `F` gives up the characters of `xs` one by one
when `F` fails at each of them. -/
theorem flatMap_lazy_skip (F : List Char → List (List Char)) (xs u : List Char)
    (h : ∀ pre post, xs = pre ++ post → post ≠ [] → F (post ++ u) = []) :
    (lazyTails isAny (xs ++ u)).flatMap F = (lazyTails isAny u).flatMap F := by
  induction xs with
  | nil => rfl
  | cons x xs ih =>
    have h0 : F (x :: xs ++ u) = [] := h [] (x :: xs) rfl (by simp)
    have h1 := ih (fun pre post hpp hne => h (x :: pre) post (by simp [hpp]) hne)
    simp only [List.cons_append] at h0 ⊢
    rw [lazyTails_isAny_cons, List.flatMap_cons, h0, List.nil_append, h1]

theorem lazy_head (F : List Char → List (List Char)) (xs u r : List Char)
    (h : ∀ pre post, xs = pre ++ post → post ≠ [] → F (post ++ u) = [])
    (hu : (F u).head? = some r) :
    ((lazyTails isAny (xs ++ u)).flatMap F).head? = some r := by
  rw [flatMap_lazy_skip F xs u h]
  have hne : F u ≠ [] := by
    intro h0
    rw [h0] at hu
    simp at hu
  cases u with
  | nil => simpa [lazyTails] using hu
  | cons d t =>
    rw [lazyTails_isAny_cons, List.flatMap_cons, List.head?_append_of_ne_nil _ hne]
    exact hu

theorem quotedItem_run (d : Char) (t : List Char) (hd : d ≠ bs) :
    quotedItem.run (d :: t) = [t] := by
  simp [quotedItem, dropLit, hd, isAny_true]

/-- On a text without backslashes the lazy star of the quoted forms is the lazy
`[\s\S]*?`. -/
theorem starRun_quoted : ∀ (fuel : Nat) (u : List Char), u.length ≤ fuel →
    (∀ x ∈ u, x ≠ bs) → starRun quotedItem.run false fuel u = lazyTails isAny u := by
  intro fuel
  induction fuel with
  | zero =>
    intro u h _
    cases u with
    | nil => simp [starRun, lazyTails]
    | cons d t => simp at h
  | succ n ih =>
    intro u h hbs
    cases u with
    | nil =>
      simp [starRun, lazyTails, quotedItem]
    | cons d t =>
      have hd : d ≠ bs := hbs d (List.mem_cons_self _ _)
      have ht := ih t (by simpa using h) (fun x hx => hbs x (List.mem_cons_of_mem _ hx))
      rw [lazyTails_isAny_cons]
      simp [starRun, quotedItem_run d t hd, ht]

theorem run_lazyStar_quoted (u : List Char) (h : ∀ x ∈ u, x ≠ bs) :
    (Re.lazyStar quotedItem).run u = lazyTails isAny u :=
  starRun_quoted _ u (Nat.le_refl _) h

theorem compoundOps_second : ∀ x ∈ compoundOps,
    (match x with
    | _ :: x1 :: _ => isOpChar x1
    | _ => false) = true := by
  decide

/-- No compound operator matches when the second character is not an operator
character. -/
theorem compound_fail (c : Char) (t : List Char) (hnext : ∀ d ∈ t.head?, isOpChar d = false) :
    (altLits compoundOps).run (c :: t) = [] := by
  rw [run_altLits, List.filterMap_eq_nil_iff]
  intro x hx
  have h2 := compoundOps_second x hx
  cases x with
  | nil => exact absurd h2 (by simp)
  | cons x0 xs =>
    cases xs with
    | nil => exact absurd h2 (by simp)
    | cons x1 xs =>
      simp only at h2
      cases t with
      | nil => by_cases h0 : c = x0 <;> simp [dropLit, h0]
      | cons d t =>
        have hd : isOpChar d = false := hnext d (by simp)
        have hne : d ≠ x1 := by
          rintro rfl
          rw [h2] at hd
          exact absurd hd (by decide)
        by_cases h0 : c = x0 <;> simp [dropLit, h0, hne]

/-- The one-character operator rule fires when the rules before the operator
rules fail and the next character is not an operator character. -/
theorem firstMatch_op1 (c : Char) (t : List Char) (hc : isOpChar c = true)
    (hpre : ∀ r ∈ rules.take 18, r.re.run (c :: t) = [])
    (hnext : ∀ d ∈ t.head?, isOpChar d = false) :
    firstMatch rules ([c] ++ t) = some (op1Rule, [c]) := by
  have hsplit : rules = rules.take 18 ++ ([opRule] ++ op1Rule :: rules.drop 20) := rfl
  show firstMatch rules (c :: t) = some (op1Rule, [c])
  rw [hsplit, firstMatch_append_of_fail _ _ _ hpre, firstMatch_append_of_fail]
  · exact firstMatch_cons_hit op1Rule _ [c] t (by simp [op1Rule, hc])
  · intro r hr
    simp only [List.mem_singleton] at hr
    subst hr
    exact compound_fail c t hnext

/-! ## C12: error recovery -/

theorem rules_not_error : ∀ r ∈ rules, r.type ≠ "ERROR" := by decide

theorem classify_ne_error (rawType : String) (lex : List Char) (h : rawType ≠ "ERROR") :
    classify rawType lex ≠ "ERROR" := by
  unfold classify
  split
  · split
    · decide
    · split
      · split <;> decide
      · decide
  · exact h

theorem step_error_length (c : Char) (cs : List Char) (line col : Nat) (t : Token)
    (h : (step c cs line col).1 = some t) (ht : t.type = "ERROR") : t.lexeme.length = 1 := by
  rcases step_token c cs line col t h with ⟨_, rfl⟩ | ⟨rule, lex, hfm, _, rfl⟩
  · rfl
  · exfalso
    exact classify_ne_error rule.type lex (rules_not_error rule (firstMatch_spec _ _ _ _ hfm).1) ht

theorem ctrl_first (c : Char)
    (hc : (1 ≤ c.toNat ∧ c.toNat ≤ 8) ∨ (14 ≤ c.toNat ∧ c.toNat ≤ 31) ∨ c.toNat = 127) :
    ∀ r ∈ rules, r.re.first c = false := by
  simp [rules, Re.first, altLits, compoundOps, isIdentStart, inRange, char_eq_iff, isDigit,
    isOpChar, opChars, dq, sq, bs, isSpace] at hc ⊢
  omega

theorem firstMatch_ctrl (c : Char) (cs : List Char)
    (hc : (1 ≤ c.toNat ∧ c.toNat ≤ 8) ∨ (14 ≤ c.toNat ∧ c.toNat ≤ 31) ∨ c.toNat = 127) :
    firstMatch rules (cstr (c :: cs)) = none := by
  have hnul : c ≠ Char.ofNat 0 := by
    rw [Ne, char_eq_iff]
    simp
    omega
  have hcs : cstr (c :: cs) = c :: cstr cs := cstr_append [c] cs (by simpa using hnul)
  rw [hcs]
  exact firstMatch_none rules _ (fun r hr => run_first c r.re (ctrl_first c hc r hr) _)

/-- C12: an unrecognised character costs one `ERROR` token and nothing else.
For identifier words `a` and `b` and a control character `c` that is not
whitespace, `tokenize (a ++ [c] ++ b)` is the token `a` at column 1, the token
`ERROR` with lexeme `[c]` at column `|a| + 1` and the token `b` at column
`|a| + 2`, the words with the kind the classifier gives them; and in the output
of any input every `ERROR` token has a lexeme of length one. -/
theorem tokenize_error_recovery :
    (∀ (a b : List Char) (c : Char), isIdentWord a = true → isIdentWord b = true →
      ((1 ≤ c.toNat ∧ c.toNat ≤ 8) ∨ (14 ≤ c.toNat ∧ c.toNat ≤ 31) ∨ c.toNat = 127) →
      tokenize (a ++ [c] ++ b) = some [⟨classify "IDENT_OR_KW" a, a, 1, 1⟩,
        ⟨"ERROR", [c], 1, a.length + 1⟩, ⟨classify "IDENT_OR_KW" b, b, 1, a.length + 2⟩]) ∧
    (∀ input : List Char, ∃ toks, tokenize input = some toks ∧
      ∀ t ∈ toks, t.type = "ERROR" → t.lexeme.length = 1) ∧
    tokenize ['a', Char.ofNat 1, 'b'] = some [⟨"IDENTIFIER", ['a'], 1, 1⟩,
      ⟨"ERROR", [Char.ofNat 1], 1, 2⟩, ⟨"IDENTIFIER", ['b'], 1, 3⟩] := by
  refine ⟨?_, ?_, by decide⟩
  · intro a b c ha hb hc
    obtain ⟨c1, body1, rfl, hc1, hb1⟩ := (isIdentWord_iff a).1 ha
    obtain ⟨c2, body2, rfl, hc2, hb2⟩ := (isIdentWord_iff b).1 hb
    have hnl : c ≠ '\n' := by
      rw [Ne, char_eq_iff]
      simp
      omega
    have hci : isIdentChar c = false ∧ isMark c = false := by
      simp [isIdentChar, isMark, inRange, char_eq_iff]
      omega
    apply tokenize_of_scanned
    have h3 := scanned_ident_end c2 body2 1 (1 + (c1 :: body1).length + 1) hc2 hb2
    have h2 := scanned_error c (c2 :: body2) 1 (1 + (c1 :: body1).length) _
      (firstMatch_ctrl c _ hc) (by simpa [update_position, hnl] using h3)
    have h1 := scanned_ident_then c1 body1 (c :: c2 :: body2) 1 1 _ hc1 hb1
      (by simpa using hci) h2
    have e1 : 1 + (body1.length + 1) = body1.length + 1 + 1 := by omega
    have e2 : 1 + (body1.length + 1) + 1 = body1.length + 1 + 2 := by omega
    simpa [e1, e2] using h1
  · intro input
    obtain ⟨toks, h1, h2⟩ := tokenize_scanned input
    exact ⟨toks, h1, scanned_forall (fun t => t.type = "ERROR" → t.lexeme.length = 1)
      (fun c cs line col t h => step_error_length c cs line col t h) _ _ _ _ h2⟩

/-! ## C11: string content -/

/-- The double-quoted string pattern, run on a quoted text without quotes or
backslashes inside, takes the text up to and including the closing quote. -/
theorem stringRule_head (s : List Char) (hs : ∀ x ∈ s, x ≠ dq ∧ x ≠ bs) :
    (stringRule.re.run ((dq :: s ++ [dq]) ++ [])).head? = some [] := by
  have hbs : ∀ x ∈ s ++ [dq], x ≠ bs := by
    intro x hx
    rcases List.mem_append.1 hx with hx | hx
    · exact (hs x hx).2
    · simp only [List.mem_singleton] at hx
      subst hx
      decide
  have hlit : (Re.str [dq]).run ((dq :: s ++ [dq]) ++ []) = [s ++ [dq]] := by
    simp [dropLit]
  simp only [stringRule]
  rw [run_seq, hlit, List.flatMap_cons, List.flatMap_nil, List.append_nil, run_seq,
    run_lazyStar_quoted _ hbs]
  apply lazy_head
  · intro pre post hpp hne
    cases post with
    | nil => exact absurd rfl hne
    | cons y ys =>
      have hy : y ≠ dq := (hs y (by rw [hpp]; simp)).1
      simp [dropLit, hy]
  · simp [dropLit]

theorem firstMatch_string (s : List Char) (hs : ∀ x ∈ s, x ≠ dq ∧ x ≠ bs) :
    firstMatch rules ((dq :: s ++ [dq]) ++ []) = some (stringRule, dq :: s ++ [dq]) := by
  have hsplit : rules = rules.take 2 ++ stringRule :: rules.drop 3 := rfl
  have hpre : ∀ r ∈ rules.take 2, r.re.first dq = false := by decide
  rw [hsplit, firstMatch_append_of_fail]
  · exact firstMatch_cons_hit stringRule _ _ _ (stringRule_head s hs)
  · intro r hr
    exact run_first dq r.re (hpre r hr) _

theorem eq_before_space (t : List Char) :
    ∀ r ∈ rules.take 18, r.re.run ('=' :: ' ' :: t) = [] := by
  have hsplit : rules.take 18 = cbRule :: (rules.take 18).drop 1 := rfl
  have hrest : ∀ r ∈ (rules.take 18).drop 1, r.re.first '=' = false := by decide
  intro r hr
  rw [hsplit] at hr
  rcases List.mem_cons.1 hr with rfl | hr
  · simp [cbRule, dropLit]
  · exact run_first '=' r.re (hrest r hr) _

/-- C11: the content of a double-quoted string is opaque.  For every text `s`
without double quote, backslash and NUL, `x = "s"` is the three tokens
`IDENTIFIER x`, `OP =` and one `STRING` token holding the whole quoted text;
nothing inside the quotes becomes a token of its own. -/
theorem tokenize_string_opaque :
    (∀ s : List Char, (∀ x ∈ s, x ≠ Char.ofNat 34 ∧ x ≠ Char.ofNat 92 ∧ x ≠ Char.ofNat 0) →
      tokenize ("x = ".toList ++ [Char.ofNat 34] ++ s ++ [Char.ofNat 34]) =
        some [⟨"IDENTIFIER", ['x'], 1, 1⟩, ⟨"OP", ['='], 1, 3⟩,
          ⟨"STRING", [Char.ofNat 34] ++ s ++ [Char.ofNat 34], 1, 5⟩]) ∧
    tokenize "x = \"a:b @c\"".toList =
      some [⟨"IDENTIFIER", ['x'], 1, 1⟩, ⟨"OP", ['='], 1, 3⟩,
        ⟨"STRING", "\"a:b @c\"".toList, 1, 5⟩] ∧
    tokenize "x = \"# /y/ 'z'\n\t:k @v\"".toList =
      some [⟨"IDENTIFIER", ['x'], 1, 1⟩, ⟨"OP", ['='], 1, 3⟩,
        ⟨"STRING", "\"# /y/ 'z'\n\t:k @v\"".toList, 1, 5⟩] := by
  refine ⟨?_, by decide, by decide⟩
  intro s hs
  have hs2 : ∀ x ∈ s, x ≠ dq ∧ x ≠ bs := fun x hx => ⟨(hs x hx).1, (hs x hx).2.1⟩
  have hnul : ∀ x ∈ dq :: s ++ [dq], x ≠ Char.ofNat 0 := by
    intro x hx
    simp only [List.cons_append, List.mem_cons, List.mem_append, List.mem_singleton,
      List.not_mem_nil, or_false] at hx
    rcases hx with rfl | hx | rfl
    · decide
    · exact (hs x hx).2.2
    · decide
  apply tokenize_of_scanned
  have h4 := scanned_emit stringRule (dq :: s ++ [dq]) [] 1 5 [] (by simp) hnul
    (by simpa [cstr] using firstMatch_string s hs2) rfl (Scanned.done _ _)
  have h3 := scanned_ws ' ' [] (dq :: s ++ [dq] ++ []) 1 4 _ (by decide) (by simp)
    (by simp; decide) (by simpa [update_position] using h4)
  have h2 := scanned_emit op1Rule ['='] (' ' :: [] ++ (dq :: s ++ [dq] ++ [])) 1 3 _ (by simp)
    (by simp)
    (by
      have hc : cstr (' ' :: [] ++ (dq :: s ++ [dq] ++ [])) =
          ' ' :: cstr ([] ++ (dq :: s ++ [dq] ++ [])) :=
        cstr_append [' '] _ (by simp)
      rw [hc]
      exact firstMatch_op1 '=' _ (by decide) (eq_before_space _) (by simp; decide))
    rfl (by simpa [update_position] using h3)
  have h1 := scanned_ws ' ' [] (['='] ++ (' ' :: [] ++ (dq :: s ++ [dq] ++ []))) 1 2 _
    (by decide) (by simp) (by simp; decide) (by simpa [update_position] using h2)
  have h0 := scanned_ident_then 'x' [] (' ' :: [] ++ (['='] ++ (' ' :: [] ++
    (dq :: s ++ [dq] ++ [])))) 1 1 _ (by decide) (by simp) (by simp; decide)
    (by simpa using h1)
  have hk : classify "IDENT_OR_KW" ['x'] = "IDENTIFIER" := by decide
  simpa [hk, op1Rule, stringRule, classify, dq] using h0

/-! ## C14 and C18: block comments -/

theorem endLit : "=end".toList = ['=', 'e', 'n', 'd'] := rfl

theorem beginLit : "=begin".toList = ['=', 'b', 'e', 'g', 'i', 'n'] := rfl

/-- The closing marker does not start inside a text that does not hold it, even
with the marker appended: `=end` does not overlap itself. -/
theorem end_no_overlap (body pre post : List Char) (hb : ¬ Occurs "=end".toList body)
    (hpp : body = pre ++ post) (hne : post ≠ []) :
    (Re.str "=end".toList).run (post ++ "=end".toList) = [] := by
  rw [endLit] at hb ⊢
  rcases post with _ | ⟨y1, _ | ⟨y2, _ | ⟨y3, _ | ⟨y4, r⟩⟩⟩⟩
  · exact absurd rfl hne
  · by_cases h1 : y1 = '=' <;> simp [dropLit, h1]
  · by_cases h1 : y1 = '=' <;> by_cases h2 : y2 = 'e' <;> simp [dropLit, h1, h2]
  · by_cases h1 : y1 = '=' <;> by_cases h2 : y2 = 'e' <;> by_cases h3 : y3 = 'n' <;>
      simp [dropLit, h1, h2, h3]
  · by_cases h1 : y1 = '='
    · by_cases h2 : y2 = 'e'
      · by_cases h3 : y3 = 'n'
        · by_cases h4 : y4 = 'd'
          · exfalso
            apply hb
            exact ⟨pre, r, by rw [hpp, h1, h2, h3, h4]; simp⟩
          · simp [dropLit, h1, h2, h3, h4]
        · simp [dropLit, h1, h2, h3]
      · simp [dropLit, h1, h2]
    · simp [dropLit, h1]

/-- The block-comment pattern takes `=begin`, the body and the first `=end`. -/
theorem cbRule_head (body : List Char) (hb : ¬ Occurs "=end".toList body) :
    (cbRule.re.run (("=begin".toList ++ body ++ "=end".toList) ++ [])).head? = some [] := by
  have hlit : (Re.str "=begin".toList).run (("=begin".toList ++ body ++ "=end".toList) ++ []) =
      [body ++ "=end".toList] := by
    simp [dropLit]
  simp only [cbRule]
  rw [run_seq, hlit, List.flatMap_cons, List.flatMap_nil, List.append_nil, run_seq,
    run_lazyStar_cls]
  apply lazy_head
  · intro pre post hpp hne
    exact end_no_overlap body pre post hb hpp hne
  · simp [dropLit]

/-- What the block-comment pattern matches begins with `=begin` and ends with
`=end`. -/
theorem cbRule_shape (s t : List Char) (h : t ∈ cbRule.re.run s) :
    ∃ x, s = "=begin".toList ++ x ++ "=end".toList ++ t := by
  simp only [cbRule, run_seq, run_str, run_lazyStar_cls, List.mem_flatMap, Option.mem_toList,
    Option.mem_def] at h
  obtain ⟨u, hu, v, hv, ht⟩ := h
  have h1 := (dropLit_eq_some _ _ _).1 hu
  obtain ⟨x, h2⟩ := lazyTails_suffix _ _ _ hv
  have h3 := (dropLit_eq_some _ _ _).1 ht
  exact ⟨x, by rw [h1, h2, h3]; simp⟩

theorem rules_cb_index : ∀ i < 22,
    (rules[i]?).map (fun r => r.type) = some "COMMENT_BLOCK" → i = 0 := by
  decide

theorem classify_eq_raw (rawType : String) (lex : List Char) (T : String)
    (hT : T ≠ "KEYWORD" ∧ T ≠ "CONSTANT" ∧ T ≠ "IDENTIFIER") (h : classify rawType lex = T) :
    rawType = T := by
  unfold classify at h
  split at h
  · exfalso
    split at h
    · exact hT.1 h.symm
    · split at h
      · split at h
        · exact hT.2.1 h.symm
        · exact hT.2.2 h.symm
      · exact hT.2.2 h.symm
  · exact h

/-- The rule behind a token of a kind that the classifier passes through: its
index in the table, the failure of the rules before it, and its match. -/
theorem step_rule (c : Char) (cs : List Char) (line col : Nat) (t : Token)
    (h : (step c cs line col).1 = some t)
    (hT : t.type ≠ "KEYWORD" ∧ t.type ≠ "CONSTANT" ∧ t.type ≠ "IDENTIFIER" ∧ t.type ≠ "ERROR") :
    ∃ i rule rest, i < 22 ∧ rules[i]? = some rule ∧ rule.type = t.type ∧
      (∀ q ∈ rules.take i, q.re.run (cstr (c :: cs)) = []) ∧
      (rule.re.run (cstr (c :: cs))).head? = some rest ∧
      cstr (c :: cs) = t.lexeme ++ rest := by
  rcases step_token c cs line col t h with ⟨_, rfl⟩ | ⟨rule, lex, hfm, _, rfl⟩
  · exact absurd rfl hT.2.2.2
  · obtain ⟨i, h1, h2, rest, h3, h4⟩ := firstMatch_index _ _ _ _ hfm
    have hi : i < 22 := by
      by_contra hge
      have : rules[i]? = none := List.getElem?_eq_none (by simp [rules] at hge ⊢; omega)
      rw [this] at h1
      exact absurd h1 (by simp)
    exact ⟨i, rule, rest, hi, h1, classify_eq_raw _ _ _ ⟨hT.1, hT.2.1, hT.2.2.1⟩ rfl, h2, h3, h4⟩

theorem step_cb (c : Char) (cs : List Char) (line col : Nat) (t : Token)
    (h : (step c cs line col).1 = some t) (ht : t.type = "COMMENT_BLOCK") :
    ∃ x rest, t.lexeme = "=begin".toList ++ x ++ "=end".toList ∧ c :: cs = t.lexeme ++ rest := by
  obtain ⟨i, rule, rest, hi, h1, h2, _, h3, h4⟩ := step_rule c cs line col t h
    (by rw [ht]; decide)
  have h0 : i = 0 := rules_cb_index i hi (by rw [h1, ← ht, ← h2]; rfl)
  subst h0
  have hr : rule = cbRule := by
    have : rules[0]? = some cbRule := rfl
    rw [this] at h1
    exact (Option.some.inj h1).symm
  subst hr
  obtain ⟨x, hx⟩ := cbRule_shape _ _ (List.mem_of_mem_head? h3)
  have hlex : t.lexeme = "=begin".toList ++ x ++ "=end".toList := by
    rw [h4] at hx
    exact List.append_cancel_right hx
  refine ⟨x, rest ++ (c :: cs).dropWhile (fun c => c != Char.ofNat 0), hlex, ?_⟩
  conv_lhs => rw [← cstr_append_dropWhile (c :: cs), h4]
  simp

theorem occurs_of_suffix (x s pre : List Char) (rest : List Char) (h : Occurs x rest)
    (hs : s = pre ++ rest) : Occurs x s := by
  obtain ⟨p, q, rfl⟩ := h
  exact ⟨pre ++ p, q, by rw [hs]; simp⟩

theorem occurs_of_left (x s lex rest : List Char) (h : Occurs x lex) (hs : s = lex ++ rest) :
    Occurs x s := by
  obtain ⟨p, q, rfl⟩ := h
  exact ⟨p, q ++ rest, by rw [hs]; simp⟩

/-- A text that does not hold `=end` gives no `COMMENT_BLOCK` token. -/
theorem scanned_no_cb (s : List Char) (line col : Nat) (toks : List Token)
    (h : Scanned s line col toks) (hs : ¬ Occurs "=end".toList s) :
    ∀ t ∈ toks, t.type ≠ "COMMENT_BLOCK" := by
  induction h with
  | done line col => simp
  | next c cs line col toks _ ih =>
    obtain ⟨lex, _, hsplit, _⟩ := step_spec c cs line col
    have hrest : ¬ Occurs "=end".toList (step c cs line col).2.rest :=
      fun ho => hs (occurs_of_suffix _ _ lex _ ho hsplit)
    intro t ht
    rcases List.mem_append.1 ht with ht | ht
    · intro hty
      obtain ⟨x, rest, hx, hcs⟩ := step_cb c cs line col t (by simpa using ht) hty
      exact hs (occurs_of_left _ _ t.lexeme rest ⟨"=begin".toList ++ x, [], by rw [hx]; simp⟩ hcs)
    · exact ih hrest t ht

theorem scanned_cons_inv (c : Char) (cs : List Char) (line col : Nat) (toks : List Token)
    (h : Scanned (c :: cs) line col toks) :
    ∃ toks2, toks = (step c cs line col).1.toList ++ toks2 ∧
      Scanned (step c cs line col).2.rest (step c cs line col).2.line
        (step c cs line col).2.col toks2 := by
  cases h with
  | next _ _ _ _ toks2 h2 => exact ⟨toks2, rfl, h2⟩

/-- C14: a terminated block comment is one token.  For every body without
`=end` and without NUL, `=begin` followed by the body and `=end` is the single
token of kind `COMMENT_BLOCK` at line 1, column 1, holding the whole input, also
when the body runs over several lines. -/
theorem tokenize_block_comment :
    (∀ body : List Char, (∀ pre post, body ≠ pre ++ "=end".toList ++ post) →
      (∀ x ∈ body, x ≠ Char.ofNat 0) →
      tokenize ("=begin".toList ++ body ++ "=end".toList) =
        some [⟨"COMMENT_BLOCK", "=begin".toList ++ body ++ "=end".toList, 1, 1⟩]) ∧
    tokenize "=begin\n# a \"b\" + 'c'\n=en =\n=end".toList =
      some [⟨"COMMENT_BLOCK", "=begin\n# a \"b\" + 'c'\n=en =\n=end".toList, 1, 1⟩] ∧
    tokenize "=begin=end".toList = some [⟨"COMMENT_BLOCK", "=begin=end".toList, 1, 1⟩] := by
  refine ⟨?_, by decide, by decide⟩
  intro body hb hnul
  have hocc : ¬ Occurs "=end".toList body := by
    rintro ⟨pre, post, h⟩
    exact hb pre post h
  have hnul2 : ∀ x ∈ "=begin".toList ++ body ++ "=end".toList, x ≠ Char.ofNat 0 := by
    intro x hx
    rcases List.mem_append.1 hx with hx | hx
    · rcases List.mem_append.1 hx with hx | hx
      · have : ∀ y ∈ "=begin".toList, y ≠ Char.ofNat 0 := by decide
        exact this x hx
      · exact hnul x hx
    · have : ∀ y ∈ "=end".toList, y ≠ Char.ofNat 0 := by decide
      exact this x hx
  have hsplit : rules = cbRule :: rules.drop 1 := rfl
  have hfm : firstMatch rules (("=begin".toList ++ body ++ "=end".toList) ++ cstr []) =
      some (cbRule, "=begin".toList ++ body ++ "=end".toList) := by
    rw [hsplit]
    exact firstMatch_cons_hit cbRule _ _ _ (cbRule_head body hocc)
  apply tokenize_of_scanned
  have := scanned_emit cbRule ("=begin".toList ++ body ++ "=end".toList) [] 1 1 [] (by simp)
    hnul2 hfm rfl (Scanned.done _ _)
  simpa [cbRule, classify] using this

/-- C18: an unterminated block comment falls through to the lower rules.  When
the input is `=begin` followed by nothing or by text that starts with a
whitespace character, and holds no `=end`, its first two tokens are `OP =` at
line 1, column 1 and `KEYWORD begin` at line 1, column 2, and no token is a
`COMMENT_BLOCK`.  In the output of any input the lexeme of a `COMMENT_BLOCK`
token begins with `=begin` and ends with `=end`. -/
theorem tokenize_open_comment :
    (∀ r : List Char, (∀ d ∈ r.head?, d ∈ [' ', '\t', '\n', '\r', Char.ofNat 11, Char.ofNat 12]) →
      (∀ pre post, "=begin".toList ++ r ≠ pre ++ "=end".toList ++ post) →
      ∃ toks, tokenize ("=begin".toList ++ r) =
          some (⟨"OP", ['='], 1, 1⟩ :: ⟨"KEYWORD", "begin".toList, 1, 2⟩ :: toks) ∧
        ∀ t ∈ toks, t.type ≠ "COMMENT_BLOCK") ∧
    (∀ input : List Char, ∃ toks, tokenize input = some toks ∧
      ∀ t ∈ toks, t.type = "COMMENT_BLOCK" →
        ∃ x, t.lexeme = "=begin".toList ++ x ++ "=end".toList) ∧
    tokenize "=begin x\n y".toList = some [⟨"OP", ['='], 1, 1⟩, ⟨"KEYWORD", "begin".toList, 1, 2⟩,
      ⟨"IDENTIFIER", ['x'], 1, 8⟩, ⟨"IDENTIFIER", ['y'], 2, 2⟩] ∧
    tokenize "=begin".toList = some [⟨"OP", ['='], 1, 1⟩, ⟨"KEYWORD", "begin".toList, 1, 2⟩] := by
  refine ⟨?_, ?_, by decide, by decide⟩
  · intro r hr hno
    have hocc : ¬ Occurs "=end".toList ("=begin".toList ++ r) := by
      rintro ⟨pre, post, h⟩
      exact hno pre post h
    have hsp : ∀ d ∈ r.head?, isSpace d = true := by
      intro d hd
      have := hr d hd
      simp only [List.mem_cons, List.mem_singleton, List.not_mem_nil, or_false] at this
      rcases this with rfl | rfl | rfl | rfl | rfl | rfl <;> decide
    obtain ⟨toks, h1, h2⟩ := tokenize_scanned ("=begin".toList ++ r)
    have hall := scanned_no_cb _ _ _ _ h2 hocc
    -- the first step: the one-character operator
    have hcs : cstr ("begin".toList ++ r) = "begin".toList ++ cstr r :=
      cstr_append _ _ (by decide)
    have hpre : ∀ q ∈ rules.take 18, q.re.run ('=' :: cstr ("begin".toList ++ r)) = [] := by
      have hsplit : rules.take 18 = cbRule :: (rules.take 18).drop 1 := rfl
      have hrest : ∀ q ∈ (rules.take 18).drop 1, q.re.first '=' = false := by decide
      intro q hq
      rw [hsplit] at hq
      rcases List.mem_cons.1 hq with rfl | hq
      · by_contra hne
        obtain ⟨t, ht⟩ := List.exists_mem_of_ne_nil _ hne
        obtain ⟨x, hx⟩ := cbRule_shape _ _ ht
        apply hocc
        have hc2 : cstr ("=begin".toList ++ r) = '=' :: cstr ("begin".toList ++ r) :=
          cstr_append ['='] ("begin".toList ++ r) (by decide)
        have hfull := cstr_append_dropWhile ("=begin".toList ++ r)
        rw [hc2, hx] at hfull
        generalize List.dropWhile (fun c => c != Char.ofNat 0) ("=begin".toList ++ r) = D
          at hfull
        exact ⟨"=begin".toList ++ x, t ++ D, by rw [← hfull]; simp⟩
      · exact run_first '=' q.re (hrest q hq) _
    have hfm : firstMatch rules (['='] ++ cstr ("begin".toList ++ r)) = some (op1Rule, ['=']) :=
      firstMatch_op1 '=' _ (by decide) hpre (by rw [hcs]; simp; decide)
    have hs1 := step_emit op1Rule '=' [] ("begin".toList ++ r) 1 1 (by decide) hfm rfl
    -- the second step: the keyword
    have hs2 := step_ident 'b' "egin".toList r 1 2 (by decide) (by decide)
      (fun d hd => space_not_identChar d (hsp d hd))
    have hm : markOf r = [] := by
      cases r with
      | nil => rfl
      | cons d t => simp [markOf, space_not_mark d (hsp d (by simp))]
    rw [hm] at hs2
    obtain ⟨toks2, e2, h3⟩ := scanned_cons_inv '=' ("begin".toList ++ r) 1 1 toks h2
    have hs1b : step '=' ("begin".toList ++ r) 1 1 =
        (some ⟨"OP", ['='], 1, 1⟩, ⟨"begin".toList ++ r, 1, 2⟩) := by
      simpa [op1Rule, classify, update_position] using hs1
    rw [hs1b] at e2 h3
    obtain ⟨toks3, e3, _⟩ := scanned_cons_inv 'b' ("egin".toList ++ r) 1 2 toks2 h3
    have hs2b : step 'b' ("egin".toList ++ r) 1 2 =
        (some ⟨"KEYWORD", "begin".toList, 1, 2⟩, ⟨r, 1, 7⟩) := by
      have hk : classify "IDENT_OR_KW" "begin".toList = "KEYWORD" := by decide
      simpa [hk] using hs2
    rw [hs2b] at e3
    refine ⟨toks3, ?_, ?_⟩
    · rw [h1, e2, e3]
      rfl
    · intro t ht
      exact hall t (by rw [e2, e3]; simp [ht])
  · intro input
    obtain ⟨toks, h1, h2⟩ := tokenize_scanned input
    refine ⟨toks, h1, ?_⟩
    exact scanned_forall
      (fun t => t.type = "COMMENT_BLOCK" → ∃ x, t.lexeme = "=begin".toList ++ x ++ "=end".toList)
      (fun c cs line col t h hty => by
        obtain ⟨x, _, hx, _⟩ := step_cb c cs line col t h hty
        exact ⟨x, hx⟩) _ _ _ _ h2

/-! ## C17: division and pattern literals -/

theorem identWord_no_slash (c : Char) (body : List Char) (hc : isIdentStart c = true)
    (hb : ∀ x ∈ body, isIdentChar x = true) : ∀ x ∈ c :: body, x ≠ '/' := by
  intro x hx
  rintro rfl
  rcases List.mem_cons.1 hx with h | h
  · rw [← h] at hc
    exact absurd hc (by decide)
  · exact absurd (hb _ h) (by decide)

theorem regex_alt_space (X : List Char) :
    (Re.alt (.str [bs, '/']) (.alt (.seq (.str [bs]) (.cls isDot))
      (.cls isNotSlashNl))).run (' ' :: X) = [X] := by
  have hnot : isNotSlashNl ' ' = true := by decide
  have hbs : ' ' ≠ bs := by decide
  simp [dropLit, hbs, hnot]

/-- A slash, a space and an identifier word that ends the text: the rules before
the operator rules fail, the pattern-literal rule for want of a closing slash. -/
theorem slash_before_word (c : Char) (body : List Char) (hc : isIdentStart c = true)
    (hb : ∀ x ∈ body, isIdentChar x = true) :
    ∀ r ∈ rules.take 18, r.re.run ('/' :: ' ' :: c :: body) = [] := by
  intro r hr
  have hsplit : rules.take 18 = rules.take 4 ++ regexRule :: (rules.take 18).drop 5 := rfl
  have hrest : ∀ r ∈ rules.take 4 ++ (rules.take 18).drop 5, r.re.first '/' = false := by
    decide
  rw [hsplit] at hr
  rcases List.mem_append.1 hr with hr | hr
  · exact run_first '/' r.re (hrest r (List.mem_append_left _ hr)) _
  · rcases List.mem_cons.1 hr with rfl | hr
    · have hre := regex_no_close (c :: body) (identWord_no_slash c body hc hb)
      have hlit : (Re.str ['/']).run ('/' :: ' ' :: c :: body) = [' ' :: c :: body] := by
        simp [dropLit]
      simp only [regexRule]
      rw [run_seq, hlit, List.flatMap_cons, List.flatMap_nil, List.append_nil, run_seq,
        regex_alt_space, List.flatMap_cons, List.flatMap_nil, List.append_nil, hre]
    · exact run_first '/' r.re (hrest r (List.mem_append_right _ hr)) _

/-- A slash, a space, an identifier word, a space and a second slash followed by
a space: the pattern-literal rule takes the text from slash to slash. -/
theorem firstMatch_regex (c : Char) (body u : List Char) (hc : isIdentStart c = true)
    (hb : ∀ x ∈ body, isIdentChar x = true) :
    firstMatch rules (('/' :: ' ' :: (c :: body) ++ [' ', '/']) ++ ' ' :: u) =
      some (regexRule, '/' :: ' ' :: (c :: body) ++ [' ', '/']) := by
  have hsplit : rules = rules.take 4 ++ regexRule :: rules.drop 5 := rfl
  have hpre : ∀ r ∈ rules.take 4, r.re.first '/' = false := by decide
  rw [hsplit, firstMatch_append_of_fail]
  · apply firstMatch_cons_hit
    have hlit : (Re.str ['/']).run (('/' :: ' ' :: (c :: body) ++ [' ', '/']) ++ ' ' :: u) =
        [' ' :: (((c :: body) ++ [' ']) ++ '/' :: ' ' :: u)] := by
      simp [dropLit]
    simp only [regexRule]
    rw [run_seq, hlit, List.flatMap_cons, List.flatMap_nil, List.append_nil, run_seq,
      regex_alt_space, List.flatMap_cons, List.flatMap_nil, List.append_nil, run_seq,
      run_lazyStar_cls]
    apply lazy_head
    · intro pre post hpp hne
      cases post with
      | nil => exact absurd rfl hne
      | cons y ys =>
        have hy : y ∈ (c :: body) ++ [' '] := by rw [hpp]; simp
        have hne : y ≠ '/' := by
          rcases List.mem_append.1 hy with hy | hy
          · exact identWord_no_slash c body hc hb y hy
          · simp only [List.mem_singleton] at hy
            subst hy
            decide
        simp [dropLit, hne]
    · have hl : isLetter ' ' = false := by decide
      simp [dropLit, greedyTails, hl]
  · intro r hr
    exact run_first '/' r.re (hpre r hr) _

/-- C17, as the code has it: one division between two identifier words is lexed
as the word, `OP /` and the word.  A second ` / ` after the second word makes
the text from the first slash to the second one `REGEX` token, whatever follows,
because the pattern-literal rule accepts a space after its opening slash. -/
theorem tokenize_division :
    (∀ a b : List Char, isIdentWord a = true → isIdentWord b = true →
      tokenize (a ++ " / ".toList ++ b) = some [⟨classify "IDENT_OR_KW" a, a, 1, 1⟩,
        ⟨"OP", ['/'], 1, a.length + 2⟩, ⟨classify "IDENT_OR_KW" b, b, 1, a.length + 4⟩]) ∧
    (∀ a b t : List Char, isIdentWord a = true → isIdentWord b = true →
      ∃ toks, tokenize (a ++ " / ".toList ++ b ++ " / ".toList ++ t) =
        some (⟨classify "IDENT_OR_KW" a, a, 1, 1⟩ ::
          ⟨"REGEX", "/ ".toList ++ b ++ " /".toList, 1, a.length + 2⟩ :: toks)) ∧
    tokenize "a / b".toList = some [⟨"IDENTIFIER", ['a'], 1, 1⟩, ⟨"OP", ['/'], 1, 3⟩,
      ⟨"IDENTIFIER", ['b'], 1, 5⟩] := by
  refine ⟨?_, ?_, by decide⟩
  · intro a b ha hb
    obtain ⟨c1, body1, rfl, hc1, hb1⟩ := (isIdentWord_iff a).1 ha
    obtain ⟨c2, body2, rfl, hc2, hb2⟩ := (isIdentWord_iff b).1 hb
    apply tokenize_of_scanned
    have h5 := scanned_ident_end c2 body2 1 ((c1 :: body1).length + 4) hc2 hb2
    have h4 := scanned_ws ' ' [] (c2 :: body2) 1 ((c1 :: body1).length + 3) _ (by decide)
      (by simp) (by simpa using identStart_not_space c2 hc2)
      (by simpa [update_position] using h5)
    have hnul : ∀ x ∈ c2 :: body2, x ≠ Char.ofNat 0 := by
      intro x hx
      rcases List.mem_cons.1 hx with rfl | hx
      · exact identStart_ne_nul _ hc2
      · exact identChar_ne_nul _ (hb2 x hx)
    have hcs : cstr (' ' :: [] ++ (c2 :: body2)) = ' ' :: c2 :: body2 := by
      have := cstr_append (' ' :: c2 :: body2) [] (by
        intro x hx
        rcases List.mem_cons.1 hx with rfl | hx
        · decide
        · exact hnul x hx)
      simpa [cstr] using this
    have h3 := scanned_emit op1Rule ['/'] (' ' :: [] ++ (c2 :: body2)) 1
      ((c1 :: body1).length + 2) _ (by simp) (by simp)
      (by
        rw [hcs]
        exact firstMatch_op1 '/' _ (by decide) (slash_before_word c2 body2 hc2 hb2)
          (by simp; decide))
      rfl (by simpa [update_position] using h4)
    have h2 := scanned_ws ' ' [] (['/'] ++ (' ' :: [] ++ (c2 :: body2))) 1
      ((c1 :: body1).length + 1) _ (by decide) (by simp) (by simp; decide)
      (by simpa [update_position] using h3)
    have h1 := scanned_ident_then c1 body1 (' ' :: [] ++ (['/'] ++ (' ' :: [] ++ (c2 :: body2))))
      1 1 _ hc1 hb1 (by simp; decide) (by simpa [Nat.add_comm] using h2)
    simpa [op1Rule, classify] using h1
  · intro a b t ha hb
    obtain ⟨c1, body1, rfl, hc1, hb1⟩ := (isIdentWord_iff a).1 ha
    obtain ⟨c2, body2, rfl, hc2, hb2⟩ := (isIdentWord_iff b).1 hb
    have hcs : cstr (' ' :: t) = ' ' :: cstr t := cstr_append [' '] t (by simp)
    have hnul : ∀ x ∈ '/' :: ' ' :: (c2 :: body2) ++ [' ', '/'], x ≠ Char.ofNat 0 := by
      intro x hx
      simp only [List.cons_append, List.mem_cons, List.mem_append, List.mem_singleton,
        List.not_mem_nil, or_false] at hx
      rcases hx with rfl | rfl | rfl | hx | rfl | rfl
      · decide
      · decide
      · exact identStart_ne_nul _ hc2
      · exact identChar_ne_nul _ (hb2 x hx)
      · decide
      · decide
    have hnl : ∀ x ∈ '/' :: ' ' :: (c2 :: body2) ++ [' ', '/'], x ≠ '\n' := by
      intro x hx
      simp only [List.cons_append, List.mem_cons, List.mem_append, List.mem_singleton,
        List.not_mem_nil, or_false] at hx
      rcases hx with rfl | rfl | h | hx | rfl | rfl
      · decide
      · decide
      · rw [h]
        exact identWord_no_newline c2 body2 [] hc2 hb2 c2 (by simp [markOf])
      · exact identWord_no_newline c2 body2 [] hc2 hb2 x (by simp [markOf, hx])
      · decide
      · decide
    obtain ⟨toks, _, h4⟩ := tokenizeLoop_scanned (' ' :: t).length (' ' :: t) 1
      ((c1 :: body1).length + 2 + ('/' :: ' ' :: (c2 :: body2) ++ [' ', '/']).length)
      (Nat.le_refl _)
    refine ⟨toks, ?_⟩
    apply tokenize_of_scanned
    have h3 := scanned_emit regexRule ('/' :: ' ' :: (c2 :: body2) ++ [' ', '/']) (' ' :: t) 1
      ((c1 :: body1).length + 2) toks (by simp) hnul
      (by rw [hcs]; exact firstMatch_regex c2 body2 (cstr t) hc2 hb2) rfl
      (by rw [update_position_flat _ hnl]; exact h4)
    have h2 := scanned_ws ' ' [] (('/' :: ' ' :: (c2 :: body2) ++ [' ', '/']) ++ ' ' :: t) 1
      ((c1 :: body1).length + 1) _ (by decide) (by simp) (by simp; decide)
      (by simpa [update_position] using h3)
    have h1 := scanned_ident_then c1 body1
      (' ' :: [] ++ (('/' :: ' ' :: (c2 :: body2) ++ [' ', '/']) ++ ' ' :: t)) 1 1 _ hc1 hb1
      (by simp; decide) (by simpa [Nat.add_comm] using h2)
    simpa [regexRule, classify] using h1

/-- C17 as stated fails for three words: in `a / b / c` the text `/ b /` is one
`REGEX` token and there is no `OP` token at all. -/
theorem division_counterexample :
    isIdentWord ['a'] = true ∧ isIdentWord ['b'] = true ∧ isIdentWord ['c'] = true ∧
    tokenize (['a'] ++ " / ".toList ++ ['b'] ++ " / ".toList ++ ['c']) =
      some [⟨"IDENTIFIER", ['a'], 1, 1⟩, ⟨"REGEX", "/ b /".toList, 1, 3⟩,
        ⟨"IDENTIFIER", ['c'], 1, 9⟩] ∧
    ¬ ∃ toks, tokenize (['a'] ++ " / ".toList ++ ['b'] ++ " / ".toList ++ ['c']) = some toks ∧
      toks.map (fun t => t.lexeme) = [['a'], ['/'], ['b'], ['/'], ['c']] ∧
      ∀ t ∈ toks, t.type ≠ "REGEX" := by
  have h : tokenize (['a'] ++ " / ".toList ++ ['b'] ++ " / ".toList ++ ['c']) =
      some [⟨"IDENTIFIER", ['a'], 1, 1⟩, ⟨"REGEX", "/ b /".toList, 1, 3⟩,
        ⟨"IDENTIFIER", ['c'], 1, 9⟩] := by decide
  refine ⟨by decide, by decide, by decide, h, ?_⟩
  rintro ⟨toks, ht, hl, -⟩
  rw [h] at ht
  rw [← Option.some.inj ht] at hl
  exact absurd hl (by decide)

/-! ## C13: which characters the rule table covers -/

theorem firstMatch_ne_none (rs : List Rule) (s : List Char) (r : Rule) (hr : r ∈ rs)
    (hrun : r.re.run s ≠ []) : firstMatch rs s ≠ none := by
  induction rs with
  | nil => simp at hr
  | cons r0 rs ih =>
    cases h0 : (r0.re.run s).head? with
    | some rest => simp [firstMatch, h0]
    | none =>
      have hnil : r0.re.run s = [] := by simpa using h0
      simp only [firstMatch, h0]
      rcases List.mem_cons.1 hr with rfl | hr
      · exact absurd hnil hrun
      · exact ih hr

theorem flatMap_ne_nil {α β : Type} (l : List α) (f : α → List β) (hl : l ≠ [])
    (hf : ∀ a, f a ≠ []) : l.flatMap f ≠ [] := by
  cases l with
  | nil => exact absurd rfl hl
  | cons a t =>
    intro h
    rw [List.flatMap_cons, List.append_eq_nil] at h
    exact hf a h.1

/-- At a covered character some rule matches. -/
theorem covered_match (c : Char) (t : List Char) (hc : isCovered c = true) :
    firstMatch rules (c :: t) ≠ none := by
  simp only [isCovered, Bool.or_eq_true] at hc
  rcases hc with (((h | h) | h) | h) | h
  · refine firstMatch_ne_none rules _ wsRule (by rw [rules_named]; simp) ?_
    simp [wsRule, h, greedyTails_ne_nil]
  · refine firstMatch_ne_none rules _ identRule (by rw [rules_named]; simp) ?_
    simp only [identRule, identRe, run_seq, run_cls_cons, h, if_true, List.flatMap_cons,
      List.flatMap_nil, List.append_nil, run_star_cls]
    exact flatMap_ne_nil _ _ (greedyTails_ne_nil _ _) (fun a => by simp)
  · refine firstMatch_ne_none rules _ intRule (by rw [rules_named]; simp) ?_
    simp [intRule, h, greedyTails_ne_nil]
  · have hc : c = '#' := by simpa using h
    refine firstMatch_ne_none rules _ commentRule (by rw [rules_named]; simp) ?_
    simp [commentRule, hc, dropLit, greedyTails_ne_nil]
  · refine firstMatch_ne_none rules _ op1Rule (by rw [rules_named]; simp) ?_
    simp [op1Rule, h]

theorem covered_ne_nul (c : Char) (h : isCovered c = true) : c ≠ Char.ofNat 0 := by
  rintro rfl
  exact absurd h (by decide)

theorem covered_of_printable (c : Char) (h1 : 32 ≤ c.toNat) (h2 : c.toNat ≤ 126)
    (h3 : c ∉ [Char.ofNat 34, Char.ofNat 39, '$', '@', Char.ofNat 92, Char.ofNat 96]) :
    isCovered c = true := by
  simp [isCovered, isSpace, isIdentStart, isDigit, isOpChar, opChars, inRange, char_eq_iff]
    at h3 ⊢
  omega

theorem step_no_error (c : Char) (cs : List Char) (line col : Nat) (t : Token)
    (hc : isCovered c = true) (h : (step c cs line col).1 = some t) : t.type ≠ "ERROR" := by
  rcases step_token c cs line col t h with ⟨hfm, -⟩ | ⟨rule, lex, hfm, _, rfl⟩
  · exfalso
    have hcs : cstr (c :: cs) = c :: cstr cs :=
      cstr_append [c] cs (by simpa using covered_ne_nul c hc)
    rw [hcs] at hfm
    exact covered_match c _ hc hfm
  · exact classify_ne_error rule.type lex
      (rules_not_error rule (firstMatch_spec _ _ _ _ hfm).1)

theorem scanned_no_error (s : List Char) (line col : Nat) (toks : List Token)
    (h : Scanned s line col toks) (hs : ∀ x ∈ s, isCovered x = true) :
    ∀ t ∈ toks, t.type ≠ "ERROR" := by
  induction h with
  | done line col => simp
  | next c cs line col toks _ ih =>
    obtain ⟨lex, _, hsplit, _⟩ := step_spec c cs line col
    have hrest : ∀ x ∈ (step c cs line col).2.rest, isCovered x = true := by
      intro x hx
      exact hs x (by rw [hsplit]; exact List.mem_append_right _ hx)
    intro t ht
    rcases List.mem_append.1 ht with ht | ht
    · exact step_no_error c cs line col t (hs c (List.mem_cons_self _ _)) (by simpa using ht)
    · exact ih hrest t ht

/-- C13, as the code has it: the rule table covers the printable characters
other than the double quote, the single quote, `$`, `@`, the backslash and the
backquote.  On an input made of the other printable characters some rule matches
at every offset and no token is an `ERROR`; each of the six characters, alone,
is one `ERROR` token. -/
theorem tokenize_printable :
    (∀ input : List Char,
      (∀ x ∈ input, 32 ≤ x.toNat ∧ x.toNat ≤ 126 ∧
        x ∉ [Char.ofNat 34, Char.ofNat 39, '$', '@', Char.ofNat 92, Char.ofNat 96]) →
      (∀ pre c cs, input = pre ++ c :: cs → firstMatch rules (cstr (c :: cs)) ≠ none) ∧
      ∃ toks, tokenize input = some toks ∧ ∀ t ∈ toks, t.type ≠ "ERROR") ∧
    (∀ c ∈ [Char.ofNat 34, Char.ofNat 39, '$', '@', Char.ofNat 92, Char.ofNat 96],
      tokenize [c] = some [⟨"ERROR", [c], 1, 1⟩]) := by
  refine ⟨?_, by decide⟩
  intro input hin
  have hcov : ∀ x ∈ input, isCovered x = true :=
    fun x hx => covered_of_printable x (hin x hx).1 (hin x hx).2.1 (hin x hx).2.2
  constructor
  · intro pre c cs hsplit
    have hc : isCovered c = true := hcov c (by rw [hsplit]; simp)
    have hcs : cstr (c :: cs) = c :: cstr cs :=
      cstr_append [c] cs (by simpa using covered_ne_nul c hc)
    rw [hcs]
    exact covered_match c _ hc
  · obtain ⟨toks, h1, h2⟩ := tokenize_scanned input
    exact ⟨toks, h1, scanned_no_error _ _ _ _ h2 hcov⟩

/-- C13 as stated fails: `$` is a printable character and, alone, no rule
matches it, so the output is one `ERROR` token. -/
theorem printable_counterexample :
    (∀ x ∈ ['$'], 32 ≤ x.toNat ∧ x.toNat ≤ 126) ∧
    firstMatch rules (cstr ['$']) = none ∧
    tokenize ['$'] = some [⟨"ERROR", ['$'], 1, 1⟩] ∧
    ¬ ∃ toks, tokenize ['$'] = some toks ∧ ∀ t ∈ toks, t.type ≠ "ERROR" := by
  have h : tokenize ['$'] = some [⟨"ERROR", ['$'], 1, 1⟩] := by decide
  refine ⟨by decide, ?_, h, ?_⟩
  · exact firstMatch_none rules _ (by decide)
  · rintro ⟨toks, ht, hall⟩
    rw [h] at ht
    have hmem : (⟨"ERROR", ['$'], 1, 1⟩ : Token) ∈ toks := by
      rw [← Option.some.inj ht]
      simp
    exact hall _ hmem rfl

/-! ## C19: bare integers -/

theorem greedyTails_suffix (p : Char → Bool) (s t : List Char) (h : t ∈ greedyTails p s) :
    ∃ pre, s = pre ++ t := by
  induction s with
  | nil =>
    simp [greedyTails] at h
    exact ⟨[], by simp [h]⟩
  | cons d s ih =>
    by_cases hp : p d = true
    · simp only [greedyTails, hp, if_true, List.mem_append, List.mem_singleton] at h
      rcases h with h | rfl
      · obtain ⟨pre, rfl⟩ := ih h
        exact ⟨d :: pre, rfl⟩
      · exact ⟨[], rfl⟩
    · have hp2 : p d = false := by simpa using hp
      simp [greedyTails, hp2] at h
      exact ⟨[], by simp [h]⟩

theorem digit_first (c : Char) (hc : isDigit c = true) :
    ∀ r ∈ rules.take 12, r.re.first c = false := by
  simp [rules, Re.first, isIdentStart, inRange, char_eq_iff, isDigit, dq, sq, bs] at hc ⊢
  omega

theorem digitU_ne_nul (c : Char) (h : isDigitU c = true) : c ≠ Char.ofNat 0 := by
  rintro rfl
  exact absurd h (by decide)

theorem isIntText_iff (d : List Char) :
    isIntText d = true ↔
      ∃ c body, d = c :: body ∧ isDigit c = true ∧ ∀ x ∈ body, isDigitU x = true := by
  cases d with
  | nil => simp [isIntText]
  | cons c body =>
    simp only [isIntText, Bool.and_eq_true, List.all_eq_true]
    constructor
    · rintro ⟨h1, h2⟩
      exact ⟨c, body, rfl, h1, h2⟩
    · rintro ⟨c2, body2, h0, h1, h2⟩
      cases h0
      exact ⟨h1, h2⟩

/-- A pattern `0[..]...` does not match digits and underscores when the class
after the `0` has neither. -/
theorem prefixed_fail (p : Char → Bool) (R : Re) (c : Char) (body : List Char)
    (hp : ∀ x : Char, isDigitU x = true → p x = false)
    (hb : ∀ x ∈ body, isDigitU x = true) :
    (Re.seq (.str ['0']) (.seq (.cls p) R)).run (c :: body) = [] := by
  simp only [run_seq, run_str, List.flatMap_eq_nil_iff]
  intro t ht
  simp only [Option.mem_toList, Option.mem_def] at ht
  have := (dropLit_eq_some _ _ _).1 ht
  simp only [List.singleton_append, List.cons.injEq] at this
  obtain ⟨-, rfl⟩ := this
  intro u hu
  cases body with
  | nil => simp at hu
  | cons x xs =>
    have hx := hp x (hb x (List.mem_cons_self _ _))
    simp [hx] at hu

/-- A float pattern does not match digits and underscores when what must follow
the integer part cannot start with a digit or an underscore nor match the empty
text. -/
theorem float_fail (T : Re) (c : Char) (body : List Char) (hT0 : T.run [] = [])
    (hT : ∀ x : Char, isDigitU x = true → T.first x = false)
    (hb : ∀ x ∈ body, isDigitU x = true) :
    (Re.seq (.cls isDigit) (.seq (.star (.cls isDigitU)) T)).run (c :: body) = [] := by
  simp only [run_seq, run_cls_cons, run_star_cls, List.flatMap_eq_nil_iff]
  intro t ht
  split at ht
  · have ht2 : t = body := by simpa using ht
    rw [ht2]
    intro u hu
    obtain ⟨pre, hpre⟩ := greedyTails_suffix _ _ _ hu
    cases u with
    | nil => exact hT0
    | cons x xs =>
      have hx : x ∈ body := by
        rw [hpre]
        simp
      exact run_first x T (hT x (hb x hx)) xs
  · simp at ht

theorem firstMatch_int (c : Char) (body : List Char) (hc : isDigit c = true)
    (hb : ∀ x ∈ body, isDigitU x = true) :
    firstMatch rules ((c :: body) ++ []) = some (intRule, c :: body) := by
  have hsplit : rules = rules.take 12 ++
      ([hexRule, binRule, octRule, float1Rule, float2Rule] ++ intRule :: rules.drop 18) := rfl
  rw [hsplit, firstMatch_append_of_fail, firstMatch_append_of_fail]
  · apply firstMatch_cons_hit
    simp only [intRule, run_seq, List.cons_append, run_cls_cons, hc, if_true, List.flatMap_cons,
      List.flatMap_nil, List.append_nil, run_star_cls]
    have := greedyTails_head _ body [] hb (by simp)
    simpa using this
  · intro r hr
    simp only [List.mem_cons, List.mem_singleton, List.not_mem_nil, or_false] at hr
    simp only [List.cons_append, List.append_nil]
    rcases hr with rfl | rfl | rfl | rfl | rfl
    · refine prefixed_fail _ _ c body ?_ hb
      intro x hx
      simp [isDigitU, isDigit, inRange, char_eq_iff] at hx ⊢
      omega
    · refine prefixed_fail _ _ c body ?_ hb
      intro x hx
      simp [isDigitU, isDigit, inRange, char_eq_iff] at hx ⊢
      omega
    · refine prefixed_fail _ _ c body ?_ hb
      intro x hx
      simp [isDigitU, isDigit, inRange, char_eq_iff] at hx ⊢
      omega
    · refine float_fail floatTail1 c body (by simp [floatTail1, dropLit]) ?_ hb
      intro x hx
      simp [floatTail1, Re.first, isDigitU, isDigit, inRange, char_eq_iff] at hx ⊢
      omega
    · refine float_fail floatTail2 c body (by simp [floatTail2]) ?_ hb
      intro x hx
      simp [floatTail2, Re.first, isDigitU, isDigit, inRange, char_eq_iff] at hx ⊢
      omega
  · intro r hr
    exact run_first c r.re (digit_first c hc r hr) _

/-- C19: a bare integer is one `NUMBER_INT` token.  For every text `d` of the
form `[0-9][0-9_]*`, `tokenize d` is the single token `d` of kind `NUMBER_INT`
at line 1, column 1: the prefixed and the float patterns do not match it, and
the integer pattern takes all of it. -/
theorem tokenize_int :
    (∀ d : List Char, isIntText d = true → tokenize d = some [⟨"NUMBER_INT", d, 1, 1⟩]) ∧
    tokenize "0".toList = some [⟨"NUMBER_INT", ['0'], 1, 1⟩] ∧
    tokenize "1_000".toList = some [⟨"NUMBER_INT", "1_000".toList, 1, 1⟩] ∧
    tokenize "0123456789".toList = some [⟨"NUMBER_INT", "0123456789".toList, 1, 1⟩] := by
  have key : ∀ d : List Char, isIntText d = true →
      tokenize d = some [⟨"NUMBER_INT", d, 1, 1⟩] := by
    intro d hd
    obtain ⟨c, body, rfl, hc, hb⟩ := (isIntText_iff d).1 hd
    apply tokenize_of_scanned
    have hnul : ∀ x ∈ c :: body, x ≠ Char.ofNat 0 := by
      intro x hx
      rcases List.mem_cons.1 hx with rfl | hx
      · exact digitU_ne_nul _ (by simp [isDigitU, hc])
      · exact digitU_ne_nul _ (hb x hx)
    have := scanned_emit intRule (c :: body) [] 1 1 [] (by simp) hnul
      (by simpa [cstr] using firstMatch_int c body hc hb) rfl (Scanned.done _ _)
    simpa [intRule, classify] using this
  exact ⟨key, key _ (by decide), key _ (by decide), key _ (by decide)⟩

/-! ## C20: longest match among the operators -/

/-- The gaps and tokens of a scan as in `scanned_weave`, with a property that
each step guarantees of the token it pushes and the text it starts from. -/
theorem scanned_weave_rem (P : List Char → Token → Prop)
    (hP : ∀ c cs line col t, (step c cs line col).1 = some t → P (c :: cs) t)
    (s : List Char) (line col : Nat) (toks : List Token) (h : Scanned s line col toks) :
    ∃ gaps : List (List Char), gaps.length = toks.length + 1 ∧
      (∀ g ∈ gaps, ∀ c ∈ g, isSpace c = true) ∧ weave gaps toks = s ∧
      ∀ (i : Nat) (hi : i < toks.length),
        P ((toks.get ⟨i, hi⟩).lexeme ++ weave (gaps.drop (i + 1)) (toks.drop (i + 1)))
          (toks.get ⟨i, hi⟩) := by
  induction h with
  | done line col => exact ⟨[[]], by simp, by simp, by simp [weave], by simp⟩
  | next c cs line col toks _ ih =>
    obtain ⟨lex, hne, hs, hpos, hk⟩ := step_spec c cs line col
    obtain ⟨gaps, hlen, hsp, hw, hidx⟩ := ih
    cases gaps with
    | nil => simp at hlen
    | cons g0 gs =>
      rcases hk with ⟨hnone, hws⟩ | ⟨ty, _, hsome⟩
      · rw [hnone]
        refine ⟨(lex ++ g0) :: gs, by simpa using hlen, ?_, ?_, ?_⟩
        · intro g hg x hx
          rcases List.mem_cons.1 hg with rfl | hg
          · rcases List.mem_append.1 hx with hx | hx
            · exact hws x hx
            · exact hsp g0 (List.mem_cons_self _ _) x hx
          · exact hsp g (List.mem_cons_of_mem _ hg) x hx
        · simp only [Option.toList, List.nil_append]
          rw [weave_append_gap, hw]
          exact hs.symm
        · intro i hi
          have := hidx i hi
          simpa using this
      · have hPt := hP c cs line col _ hsome
        rw [hsome]
        refine ⟨[] :: g0 :: gs, by simpa using hlen, ?_, ?_, ?_⟩
        · intro g hg x hx
          rcases List.mem_cons.1 hg with rfl | hg
          · simp at hx
          · exact hsp g hg x hx
        · show [] ++ lex ++ weave (g0 :: gs) toks = c :: cs
          rw [hw]
          exact hs.symm
        · intro i hi
          cases i with
          | zero =>
            show P (lex ++ weave (g0 :: gs) toks) _
            rw [hw, ← hs]
            exact hPt
          | succ k =>
            have := hidx k (by simpa using hi)
            simpa using this

theorem filterMap_head {α β : Type} (f : α → Option β) (l : List α) (b : β)
    (h : (l.filterMap f).head? = some b) :
    ∃ pre x post, l = pre ++ x :: post ∧ f x = some b ∧ ∀ y ∈ pre, f y = none := by
  induction l with
  | nil => simp at h
  | cons a l ih =>
    cases ha : f a with
    | some b2 =>
      simp only [List.filterMap_cons, ha, List.head?_cons, Option.some.injEq] at h
      subst h
      exact ⟨[], a, l, rfl, ha, by simp⟩
    | none =>
      simp only [List.filterMap_cons, ha] at h
      obtain ⟨pre, x, post, h1, h2, h3⟩ := ih h
      refine ⟨a :: pre, x, post, by simp [h1], h2, ?_⟩
      intro y hy
      rcases List.mem_cons.1 hy with rfl | hy
      · exact ha
      · exact h3 y hy

theorem rules_op_index : ∀ i < 22,
    (rules[i]?).map (fun r => r.type) = some "OP" → i = 18 ∨ i = 19 := by
  decide

/-- In the list of compound operators no operator is a proper beginning of a
later one. -/
theorem compoundOps_order : compoundOps.Pairwise
    (fun x y => ((dropLit x y).isSome && decide (x.length < y.length)) = false) := by
  decide

theorem compoundOps_long : ∀ x ∈ compoundOps, 2 ≤ x.length := by decide

theorem operatorSet_ne_nul : ∀ y ∈ operatorSet, ∀ x ∈ y, x ≠ Char.ofNat 0 := by decide

theorem operatorSet_mem (y : List Char) (h : y ∈ operatorSet) :
    y ∈ compoundOps ∨ y.length = 1 := by
  simp only [operatorSet, List.mem_append, List.mem_map] at h
  rcases h with h | ⟨ch, _, rfl⟩
  · exact Or.inl h
  · exact Or.inr rfl

/-- The `OP` token a step pushes is the longest operator the text at the scan
position begins with. -/
theorem step_op (c : Char) (cs : List Char) (line col : Nat) (t : Token)
    (h : (step c cs line col).1 = some t) (ht : t.type = "OP") :
    t.lexeme ∈ operatorSet ∧
      ∀ y ∈ operatorSet, (∃ z, c :: cs = y ++ z) → y.length ≤ t.lexeme.length := by
  obtain ⟨i, rule, rest, hi, h1, h2, hpre, hhead, hsplit⟩ := step_rule c cs line col t h
    (by rw [ht]; decide)
  have hseen : ∀ y ∈ operatorSet, (∃ z, c :: cs = y ++ z) →
      ∃ z, cstr (c :: cs) = y ++ z := by
    rintro y hy ⟨z, hz⟩
    exact ⟨cstr z, by rw [hz]; exact cstr_append y z (operatorSet_ne_nul y hy)⟩
  rcases rules_op_index i hi (by rw [h1, ← ht, ← h2]; rfl) with rfl | rfl
  · -- the compound-operator rule
    have hr : rule = opRule := by
      have : rules[18]? = some opRule := rfl
      rw [this] at h1
      exact (Option.some.inj h1).symm
    subst hr
    simp only [opRule, run_altLits] at hhead
    obtain ⟨pre, x, post, hl, hx, hfail⟩ := filterMap_head _ _ _ hhead
    have hsx : cstr (c :: cs) = x ++ rest := (dropLit_eq_some _ _ _).1 hx
    have hlex : t.lexeme = x := List.append_cancel_right (hsplit.symm.trans hsx)
    have hxmem : x ∈ compoundOps := by rw [hl]; simp
    refine ⟨by rw [hlex]; exact List.mem_append_left _ hxmem, ?_⟩
    intro y hy hpre_y
    obtain ⟨z, hz⟩ := hseen y hy hpre_y
    rw [hlex]
    rcases operatorSet_mem y hy with hyc | hy1
    · rw [hl] at hyc
      rcases List.mem_append.1 hyc with hyp | hyp
      · have := hfail y hyp
        rw [(dropLit_eq_some y _ z).2 hz] at this
        exact absurd this (by simp)
      · rcases List.mem_cons.1 hyp with rfl | hyp
        · exact Nat.le_refl _
        · have hord := compoundOps_order
          rw [hl, List.pairwise_append] at hord
          have hR := (List.pairwise_cons.1 hord.2.1).1 y hyp
          by_contra hlt
          have hlt2 : x.length < y.length := Nat.lt_of_not_le hlt
          have hxy : dropLit x y = some (y.drop x.length) := by
            apply (dropLit_eq_some _ _ _).2
            have e : x ++ rest = y ++ z := hsx.symm.trans hz
            have e1 : (x ++ rest).take x.length = (y ++ z).take x.length := by rw [e]
            rw [List.take_left, List.take_append_of_le_length (Nat.le_of_lt hlt2)] at e1
            conv_lhs => rw [← List.take_append_drop x.length y]
            rw [← e1]
          simp [hxy, hlt2] at hR
    · have := compoundOps_long x hxmem
      omega
  · -- the one-character operator rule
    have hr : rule = op1Rule := by
      have : rules[19]? = some op1Rule := rfl
      rw [this] at h1
      exact (Option.some.inj h1).symm
    subst hr
    have hcomp : (altLits compoundOps).run (cstr (c :: cs)) = [] :=
      hpre opRule (by
        have : rules.take 19 = rules.take 18 ++ [opRule] := rfl
        rw [this]
        simp)
    rw [run_altLits, List.filterMap_eq_nil_iff] at hcomp
    have hlex : t.lexeme.length = 1 ∧ t.lexeme ∈ operatorSet := by
      cases hs : cstr (c :: cs) with
      | nil => simp [op1Rule, hs] at hhead
      | cons d u =>
        rw [hs] at hhead hsplit
        by_cases hd : isOpChar d = true
        · simp only [op1Rule, run_cls_cons, hd, if_true, List.head?_cons,
            Option.some.injEq] at hhead
          have hl : t.lexeme = [d] := by
            have : [d] ++ rest = t.lexeme ++ rest := by rw [← hsplit, ← hhead]; rfl
            exact (List.append_cancel_right this).symm
          refine ⟨by rw [hl]; rfl, ?_⟩
          rw [hl]
          apply List.mem_append_right
          simp only [isOpChar, List.contains_iff_exists_mem_beq, beq_iff_eq] at hd
          obtain ⟨a, ha, rfl⟩ := hd
          exact List.mem_map_of_mem _ ha
        · simp [op1Rule, hd] at hhead
    refine ⟨hlex.2, ?_⟩
    intro y hy hpre_y
    obtain ⟨z, hz⟩ := hseen y hy hpre_y
    rcases operatorSet_mem y hy with hyc | hy1
    · have := hcomp y hyc
      rw [(dropLit_eq_some y _ z).2 hz] at this
      exact absurd this (by simp)
    · omega

/-- C20: an `OP` token is the longest operator at its place.  With the input
split into gaps and lexemes as in C2, the lexeme of every `OP` token is in the
operator set, and every operator of the set that the input begins with at the
token's offset is at most as long as the lexeme: the order of the alternatives
of the compound-operator pattern never lets a shorter operator win. -/
theorem tokenize_op_longest (input : List Char) :
    (∃ (toks : List Token) (gaps : List (List Char)), tokenize input = some toks ∧
      gaps.length = toks.length + 1 ∧ (∀ g ∈ gaps, ∀ c ∈ g, isSpace c = true) ∧
      weave gaps toks = input ∧
      ∀ (i : Nat) (hi : i < toks.length), (toks.get ⟨i, hi⟩).type = "OP" →
        input = weave (gaps.take (i + 1)) (toks.take i) ++
          ((toks.get ⟨i, hi⟩).lexeme ++ weave (gaps.drop (i + 1)) (toks.drop (i + 1))) ∧
        (toks.get ⟨i, hi⟩).lexeme ∈ operatorSet ∧
        ∀ y ∈ operatorSet,
          (∃ z, (toks.get ⟨i, hi⟩).lexeme ++ weave (gaps.drop (i + 1)) (toks.drop (i + 1)) =
            y ++ z) →
          y.length ≤ (toks.get ⟨i, hi⟩).lexeme.length) ∧
    operatorSet = (["<=>", "===", "<<=", ">>=", "**=", "&&=", "||=", "+=", "-=", "*=", "/=", "%=",
        "&=", "|=", "^=", "<=", ">=", "==", "!=", "=~", "!~", "...", "::", "=>", "**", "<<", ">>",
        "&&", "||", "&.", "..", "+", "-", "*", "/", "%", "&", "|", "^", "~", "!", "=", "<", ">",
        "?", ":", ".", ",", ";", "(", ")", "[", "]", "\x7b", "\x7d"] : List String).map
          String.toList ∧
    tokenize "a<<=b**c...d".toList = some [⟨"IDENTIFIER", ['a'], 1, 1⟩,
      ⟨"OP", "<<=".toList, 1, 2⟩, ⟨"IDENTIFIER", ['b'], 1, 5⟩, ⟨"OP", "**".toList, 1, 6⟩,
      ⟨"IDENTIFIER", ['c'], 1, 8⟩, ⟨"OP", "...".toList, 1, 9⟩, ⟨"IDENTIFIER", ['d'], 1, 12⟩] := by
  refine ⟨?_, by decide, by decide⟩
  obtain ⟨toks, h1, h2⟩ := tokenize_scanned input
  obtain ⟨gaps, h3, h4, h5, h6⟩ := scanned_weave_rem
    (fun rem t => t.type = "OP" → t.lexeme ∈ operatorSet ∧
      ∀ y ∈ operatorSet, (∃ z, rem = y ++ z) → y.length ≤ t.lexeme.length)
    (fun c cs line col t h hty => step_op c cs line col t h hty) _ _ _ _ h2
  refine ⟨toks, gaps, h1, h3, h4, h5, ?_⟩
  intro i hi hty
  refine ⟨?_, h6 i hi hty⟩
  rw [← List.append_assoc, ← h5]
  exact weave_split toks gaps i hi h3

end RubyLexer
